import Mathlib

/-!
Verification of the data-normalization and analytics pipeline of the
bilibili-web dashboard.

The development shallowly embeds the TypeScript source:

* `src/lib/project-records.ts` (the record normalizer: `castToRecordArray`,
  `pickString`, `pickNumber`, `coerceToDate`, `resolvePublishTime`,
  `formatDateTime`, `normalizeRecords`), and
* `src/app/projects/[id]/page.tsx` (the analytics aggregator:
  `parseDurationToSeconds`, `PLAY_COUNT_RANGES`, the play-count histogram,
  `segmentChineseText` and the word-cloud frequency table).

Modelling conventions:

* JSON-like runtime values are the inductive `JsonValue`; an absent field
  (JavaScript `undefined`) is `Option.none` at use sites.
* JavaScript numbers are `JSNum`: `NaN`, the two infinities, or a finite
  value modelled as an exact rational.  IEEE-754 rounding, `-0`, and the
  scientific display form of extreme magnitudes are not modelled; no claim
  in scope depends on them.
* Strings are Lean `String`s (sequences of scalar values); the titles and
  field values in scope are BMP text, where JavaScript's UTF-16 code-unit
  indexing agrees with code-point indexing.
* `Array.prototype.sort` with a consistent comparator is modelled as the
  stable insertion sort `stableSortByGt` (ECMAScript requires sort to be
  stable, which determines the result uniquely for these comparators).
* The timezone-dependent local calendar (`Date#getFullYear` …) and the
  implementation-defined `new Date(string)` parser for non-digit strings
  are environment parameters collected in `JsEnv`; theorems quantify over
  every environment.

All definitions are kernel-computable so that witnesses evaluate by
`decide`: rational arithmetic goes through the fuelled gcd `gcdF` (the
library `Nat.gcd` is defined by well-founded recursion, which the kernel
does not unfold), and string splitting/trimming is re-implemented by
structural recursion.
-/

/-! ## Kernel-computable rational arithmetic -/

/-- Fuelled Euclidean gcd; structural recursion on the fuel so the kernel
can evaluate it.  `gcdF f m n = Nat.gcd m n` whenever `m < f`. -/
def gcdF : Nat → Nat → Nat → Nat
  | 0, _, n => n
  | f + 1, m, n => if m = 0 then n else gcdF f (n % m) m

theorem gcdF_eq : ∀ (f m n : Nat), m < f → gcdF f m n = Nat.gcd m n := by
  intro f
  induction f with
  | zero => intro m n h; omega
  | succ f ih =>
    intro m n h
    match m with
    | 0 => simp [gcdF, Nat.gcd_zero_left]
    | m + 1 =>
      have hmod : n % (m + 1) < m + 1 := Nat.mod_lt _ (Nat.succ_pos m)
      have hlt : n % (m + 1) < f := by omega
      simp only [gcdF, Nat.succ_ne_zero, if_false]
      rw [ih _ _ hlt, Nat.gcd_succ]

/-- Kernel-computable smart constructor for `ℚ`: builds the normalized
fraction `n / d` (and `0` when `d = 0`), mirroring `mkRat` but with the
fuelled gcd. -/
def qMk (n : Int) (d : Nat) : ℚ :=
  if dz : d = 0 then 0
  else
    { num := n.tdiv (gcdF (n.natAbs + 1) n.natAbs d)
      den := d / gcdF (n.natAbs + 1) n.natAbs d
      den_nz := Rat.normalize.den_nz dz (gcdF_eq _ _ _ (Nat.lt_succ_self _))
      reduced := Rat.normalize.reduced dz (gcdF_eq _ _ _ (Nat.lt_succ_self _)) }

theorem qMk_eq_mkRat (n : Int) (d : Nat) : qMk n d = mkRat n d := by
  by_cases dz : d = 0
  · simp [qMk, mkRat, dz]
  · have hg := gcdF_eq (n.natAbs + 1) n.natAbs d (Nat.lt_succ_self _)
    apply Rat.ext
    · simp only [qMk, mkRat, Rat.normalize, Rat.maybeNormalize, dz, dite_false, hg]
      split
      · next h1 =>
        show n.tdiv (n.natAbs.gcd d : Int) = n
        rw [h1]
        exact Int.tdiv_one n
      · rfl
    · simp only [qMk, mkRat, Rat.normalize, Rat.maybeNormalize, dz, dite_false, hg]
      split
      · next h1 =>
        show d / n.natAbs.gcd d = d
        rw [h1]
        exact Nat.div_one d
      · rfl

theorem qMk_eq_div (n : Int) (d : Nat) : qMk n d = (n : ℚ) / (d : ℚ) := by
  rw [qMk_eq_mkRat, Rat.mkRat_eq_div]

/-- Kernel-computable addition on `ℚ` (cross-multiplication then
normalization). -/
def qAdd (a b : ℚ) : ℚ := qMk (a.num * b.den + b.num * a.den) (a.den * b.den)

/-- Kernel-computable subtraction on `ℚ`. -/
def qSub (a b : ℚ) : ℚ := qMk (a.num * b.den - b.num * a.den) (a.den * b.den)

/-- Kernel-computable multiplication on `ℚ`. -/
def qMul (a b : ℚ) : ℚ := qMk (a.num * b.num) (a.den * b.den)

theorem q_den_cast_ne (a : ℚ) : (a.den : ℚ) ≠ 0 := by
  exact_mod_cast a.den_nz

theorem qAdd_eq (a b : ℚ) : qAdd a b = a + b := by
  rw [qAdd, qMk_eq_div]
  conv_rhs => rw [← Rat.num_div_den a, ← Rat.num_div_den b]
  rw [div_add_div _ _ (q_den_cast_ne a) (q_den_cast_ne b)]
  push_cast
  ring_nf

theorem qSub_eq (a b : ℚ) : qSub a b = a - b := by
  rw [qSub, qMk_eq_div]
  conv_rhs => rw [← Rat.num_div_den a, ← Rat.num_div_den b]
  rw [div_sub_div _ _ (q_den_cast_ne a) (q_den_cast_ne b)]
  push_cast
  ring_nf

theorem qMul_eq (a b : ℚ) : qMul a b = a * b := by
  rw [qMul, qMk_eq_div]
  conv_rhs => rw [← Rat.num_div_den a, ← Rat.num_div_den b]
  rw [div_mul_div_comm]
  push_cast
  ring_nf

/-- Kernel-computable strict comparison on `ℚ` by cross multiplication. -/
def qLtb (a b : ℚ) : Bool := a.num * b.den < b.num * a.den

/-- Kernel-computable non-strict comparison on `ℚ`. -/
def qLeb (a b : ℚ) : Bool := a.num * b.den ≤ b.num * a.den

theorem q_den_cast_pos (a : ℚ) : (0 : ℚ) < (a.den : ℚ) := by
  exact_mod_cast a.den_pos

theorem qLtb_iff (a b : ℚ) : qLtb a b = true ↔ a < b := by
  rw [qLtb, decide_eq_true_iff]
  conv_rhs => rw [← Rat.num_div_den a, ← Rat.num_div_den b]
  rw [div_lt_div_iff₀ (q_den_cast_pos a) (q_den_cast_pos b)]
  exact_mod_cast Iff.rfl

theorem qLeb_iff (a b : ℚ) : qLeb a b = true ↔ a ≤ b := by
  rw [qLeb, decide_eq_true_iff]
  conv_rhs => rw [← Rat.num_div_den a, ← Rat.num_div_den b]
  rw [div_le_div_iff₀ (q_den_cast_pos a) (q_den_cast_pos b)]
  exact_mod_cast Iff.rfl

/-- Truncation of a rational toward zero (the `ToIntegerOrInfinity`
behaviour JavaScript applies inside the `Date` constructor).  The
denominator is positive, so `Int.tdiv` truncates toward zero. -/
def qTrunc (q : ℚ) : Int := q.num.tdiv q.den

/-! ## String utilities (structural, kernel-computable) -/

/-- Characters matched by JavaScript's `\s` class / `String#trim`. -/
def jsWhitespaceChars : List Char :=
  [' ', '\t', '\n', '\r', '\x0b', '\x0c', ' ', ' ', ' ',
   ' ', ' ', ' ', ' ', ' ', ' ', ' ',
   ' ', ' ', ' ', ' ', ' ', ' ', ' ',
   '　', '﻿']

def jsIsWhitespace (c : Char) : Bool := jsWhitespaceChars.contains c

/-- Remove leading and trailing JavaScript whitespace from a character list. -/
def jsTrimList (cs : List Char) : List Char :=
  ((cs.dropWhile jsIsWhitespace).reverse.dropWhile jsIsWhitespace).reverse

/-- JavaScript `String#trim`. -/
def jsTrim (s : String) : String := String.mk (jsTrimList s.data)

/-- Splitting on a single separator character, keeping empty pieces:
JavaScript `String#split` with a one-character separator. -/
def splitOnCharAux (sep : Char) : List Char → List Char → List String
  | acc, [] => [String.mk acc.reverse]
  | acc, c :: rest =>
    if c = sep then String.mk acc.reverse :: splitOnCharAux sep [] rest
    else splitOnCharAux sep (c :: acc) rest

def splitOnChar (sep : Char) (s : String) : List String := splitOnCharAux sep [] s.data

/-- Prefix test on character lists. -/
def listIsInit : List Char → List Char → Bool
  | [], _ => true
  | _ :: _, [] => false
  | a :: as, b :: bs => a = b && listIsInit as bs

/-- JavaScript `String#startsWith`. -/
def strStartsWith (s pre : String) : Bool := listIsInit pre.data s.data

/-- ASCII lower-casing of one character (what `String#toLowerCase` does on
the Latin-letter segments in scope). -/
def charLower (c : Char) : Char :=
  if 'A' ≤ c ∧ c ≤ 'Z' then Char.ofNat (c.toNat + 32) else c

def strToLower (s : String) : String := String.mk (s.data.map charLower)

/-- Decimal digits of `n`, least significant first, with explicit fuel so
the recursion is structural. -/
def natDigitsRev : Nat → Nat → List Nat
  | 0, _ => []
  | f + 1, n => if n = 0 then [] else n % 10 :: natDigitsRev f (n / 10)

def digitsValRev : List Nat → Nat
  | [] => 0
  | d :: ds => d + 10 * digitsValRev ds

/-- Decimal representation of a natural number (JavaScript `String(n)`). -/
def natRepr (n : Nat) : String :=
  if n = 0 then "0" else String.mk (((natDigitsRev n n).reverse).map Nat.digitChar)

/-- Decimal representation of an integer (JavaScript `String(i)`). -/
def intRepr (i : Int) : String :=
  if i < 0 then "-" ++ natRepr i.natAbs else natRepr i.natAbs

/-- JavaScript `String(value).padStart(2, "0")`, as used for date
components. -/
def padTwoDigits (value : Int) : String :=
  let s := intRepr value
  if 2 ≤ s.length then s else String.mk (List.replicate (2 - s.length) '0') ++ s

/-! ## JavaScript numbers and JSON-like values -/

/-- A JavaScript number: `NaN`, an infinity, or a finite value (modelled
as an exact rational; see the header note on IEEE-754). -/
inductive JSNum where
  | nan
  | posInf
  | negInf
  | finite (q : ℚ)
deriving DecidableEq

def jsIsFinite : JSNum → Bool
  | .finite _ => true
  | _ => false

def jsNumAdd : JSNum → JSNum → JSNum
  | .nan, _ => .nan
  | _, .nan => .nan
  | .posInf, .negInf => .nan
  | .posInf, _ => .posInf
  | .negInf, .posInf => .nan
  | .negInf, _ => .negInf
  | .finite _, .posInf => .posInf
  | .finite _, .negInf => .negInf
  | .finite a, .finite b => .finite (qAdd a b)

def jsNumSub : JSNum → JSNum → JSNum
  | .nan, _ => .nan
  | _, .nan => .nan
  | .posInf, .posInf => .nan
  | .posInf, _ => .posInf
  | .negInf, .negInf => .nan
  | .negInf, _ => .negInf
  | .finite _, .posInf => .negInf
  | .finite _, .negInf => .posInf
  | .finite a, .finite b => .finite (qSub a b)

def jsNumMul : JSNum → JSNum → JSNum
  | .nan, _ => .nan
  | _, .nan => .nan
  | .posInf, .posInf => .posInf
  | .posInf, .negInf => .negInf
  | .posInf, .finite q => if qLtb 0 q then .posInf else if qLtb q 0 then .negInf else .nan
  | .negInf, .posInf => .negInf
  | .negInf, .negInf => .posInf
  | .negInf, .finite q => if qLtb 0 q then .negInf else if qLtb q 0 then .posInf else .nan
  | .finite q, .posInf => if qLtb 0 q then .posInf else if qLtb q 0 then .negInf else .nan
  | .finite q, .negInf => if qLtb 0 q then .negInf else if qLtb q 0 then .posInf else .nan
  | .finite a, .finite b => .finite (qMul a b)

/-- JavaScript `a >= b` on numbers. -/
def jsNumGe : JSNum → JSNum → Bool
  | .nan, _ => false
  | _, .nan => false
  | .posInf, _ => true
  | .negInf, .negInf => true
  | .negInf, _ => false
  | .finite _, .posInf => false
  | .finite _, .negInf => true
  | .finite a, .finite b => qLeb b a

/-- JavaScript `a < b` on numbers. -/
def jsNumLt : JSNum → JSNum → Bool
  | .nan, _ => false
  | _, .nan => false
  | .posInf, _ => false
  | .negInf, .negInf => false
  | .negInf, _ => true
  | .finite _, .posInf => true
  | .finite _, .negInf => false
  | .finite a, .finite b => qLtb a b

/-- Test `x < 0`, as applied by `Array#sort` to a comparator result. -/
def jsNumNegative : JSNum → Bool
  | .nan => false
  | .posInf => false
  | .negInf => true
  | .finite q => qLtb q 0

/-- A JSON-like runtime value, the shape of the `data` payloads the cloud
document store hands to the normalizer.  Object fields are listed in
JavaScript enumeration order. -/
inductive JsonValue where
  | null
  | bool (b : Bool)
  | num (n : JSNum)
  | str (s : String)
  | arr (elems : List JsonValue)
  | obj (fields : List (String × JsonValue))

def lookupField : List (String × JsonValue) → String → Option JsonValue
  | [], _ => none
  | (k, v) :: rest, key => if k = key then some v else lookupField rest key

def digitsToNat (cs : List Char) : Nat :=
  cs.foldl (fun acc c => 10 * acc + (c.toNat - '0'.toNat)) 0

/-- Property access `value[key]`: assoc lookup on objects, canonical
numeric indices on arrays, `undefined` (`none`) otherwise. -/
def getField : JsonValue → String → Option JsonValue
  | .obj fields, key => lookupField fields key
  | .arr elems, key =>
    if key.data.all Char.isDigit ∧ natRepr (digitsToNat key.data) = key then
      elems.get? (digitsToNat key.data)
    else none
  | _, _ => none

/-! ## JavaScript string/number coercions -/

/-- Digits of the fractional part `q ∈ [0,1)`; fuelled.  Every IEEE-754
double has a finite decimal expansion (its denominator is a power of two),
so 1200 digits of fuel cover every value a double can take; other
rationals would be truncated, but none arise from the modelled inputs. -/
def fracDigits : Nat → ℚ → String
  | 0, _ => ""
  | f + 1, q =>
    if q = 0 then ""
    else
      let q10 := qMul q 10
      let d := qTrunc q10
      natRepr d.toNat ++ fracDigits f (qSub q10 (qMk d 1))

def ratToStringNonneg (q : ℚ) : String :=
  if q.den = 1 then natRepr q.num.toNat
  else natRepr (qTrunc q).toNat ++ "." ++ fracDigits 1200 (qSub q (qMk (qTrunc q) 1))

/-- JavaScript `String(x)` for a finite number.  Exponent display for
magnitudes outside `[1e-6, 1e21)` is not modelled (see header). -/
def ratToString (q : ℚ) : String :=
  if qLtb q 0 then "-" ++ ratToStringNonneg (-q) else ratToStringNonneg q

def jsNumToString : JSNum → String
  | .nan => "NaN"
  | .posInf => "Infinity"
  | .negInf => "-Infinity"
  | .finite q => ratToString q

mutual

/-- JavaScript `String(value)` for JSON-like values (`ToPrimitive` with
the default `toString`: arrays join with commas, plain objects print
`[object Object]`). -/
def jsToString : JsonValue → String
  | .null => "null"
  | .bool b => if b then "true" else "false"
  | .num n => jsNumToString n
  | .str s => s
  | .obj _ => "[object Object]"
  | .arr elems => joinVals elems

def joinVals : List JsonValue → String
  | [] => ""
  | [v] => elemString v
  | v :: rest => elemString v ++ "," ++ joinVals rest

def elemString : JsonValue → String
  | .null => ""
  | v => jsToString v

end

def hexDigitVal : Char → Option Nat :=
  fun c =>
    if '0' ≤ c ∧ c ≤ '9' then some (c.toNat - '0'.toNat)
    else if 'a' ≤ c ∧ c ≤ 'f' then some (c.toNat - 'a'.toNat + 10)
    else if 'A' ≤ c ∧ c ≤ 'F' then some (c.toNat - 'A'.toNat + 10)
    else none

def radixValAux (b : Nat) : List Char → Nat → Option Nat
  | [], acc => some acc
  | c :: rest, acc =>
    match hexDigitVal c with
    | some v => if v < b then radixValAux b rest (b * acc + v) else none
    | none => none

/-- Value of a `0x` / `0o` / `0b` literal body under `ToNumber`. -/
def parseRadixNum (b : Nat) (cs : List Char) : JSNum :=
  if cs = [] then .nan
  else
    match radixValAux b cs 0 with
    | some v => .finite (v : ℚ)
    | none => .nan

/-- Exponent suffix of a decimal literal: empty, or `e`/`E` with optional
sign and digits. -/
def parseExpPart : List Char → Option Int
  | [] => some 0
  | c :: rest =>
    if c = 'e' ∨ c = 'E' then
      match rest with
      | '+' :: ds =>
        if ds ≠ [] ∧ ds.all Char.isDigit then some (digitsToNat ds : Int) else none
      | '-' :: ds =>
        if ds ≠ [] ∧ ds.all Char.isDigit then some (-(digitsToNat ds : Int)) else none
      | ds =>
        if ds ≠ [] ∧ ds.all Char.isDigit then some (digitsToNat ds : Int) else none
    else none

/-- Exact value of a decimal literal with integer digits `ip`, fraction
digits `fp` and exponent `e`. -/
def decValue (ip fp : List Char) (e : Int) : ℚ :=
  let mant : Int := (digitsToNat ip * 10 ^ fp.length + digitsToNat fp : Nat)
  if 0 ≤ e then qMk (mant * (10 : Int) ^ e.toNat) (10 ^ fp.length)
  else qMk mant (10 ^ fp.length * 10 ^ (-e).toNat)

/-- Unsigned decimal literal of the `StrDecimalLiteral` grammar:
`digits [. digits] [exp]` or `. digits [exp]`. -/
def parseUnsignedDecimal (cs : List Char) : Option ℚ :=
  let ip := cs.takeWhile Char.isDigit
  match cs.dropWhile Char.isDigit with
  | '.' :: rest2 =>
    let fp := rest2.takeWhile Char.isDigit
    if ip = [] ∧ fp = [] then none
    else (parseExpPart (rest2.dropWhile Char.isDigit)).map (decValue ip fp)
  | rest =>
    if ip = [] then none
    else (parseExpPart rest).map (decValue ip [])

def parseUnsignedOrInf (cs : List Char) (negative : Bool) : JSNum :=
  if cs = "Infinity".data then (if negative then .negInf else .posInf)
  else
    match parseUnsignedDecimal cs with
    | some q => .finite (if negative then -q else q)
    | none => .nan

def parseSignedDecimal (cs : List Char) : JSNum :=
  match cs with
  | '+' :: rest => parseUnsignedOrInf rest false
  | '-' :: rest => parseUnsignedOrInf rest true
  | _ => parseUnsignedOrInf cs false

/-- JavaScript `ToNumber` on strings: trimmed empty string is `0`; then a
signed decimal literal, `Infinity`, or an unsigned `0x`/`0o`/`0b`
literal; anything else is `NaN`. -/
def jsStringToNumber (s : String) : JSNum :=
  match jsTrimList s.data with
  | [] => .finite 0
  | '0' :: c :: rest =>
    if c = 'x' ∨ c = 'X' then parseRadixNum 16 rest
    else if c = 'o' ∨ c = 'O' then parseRadixNum 8 rest
    else if c = 'b' ∨ c = 'B' then parseRadixNum 2 rest
    else parseSignedDecimal ('0' :: c :: rest)
  | t => parseSignedDecimal t

/-- JavaScript `Number(value)` on JSON-like values (plain arrays and
objects go through their default string conversion). -/
def jsToNumber : JsonValue → JSNum
  | .null => .finite 0
  | .bool b => .finite (if b then 1 else 0)
  | .num n => n
  | .str s => jsStringToNumber s
  | .arr elems => jsStringToNumber (joinVals elems)
  | .obj _ => jsStringToNumber "[object Object]"

/-- JavaScript `Number(value)` where `value` may be `undefined` (`none`). -/
def jsToNumberOpt : Option JsonValue → JSNum
  | none => .nan
  | some v => jsToNumber v

/-! ## The record normalizer (src/lib/project-records.ts) -/

/-- Raw project document as stored in the `bilibili-data` collection. -/
structure RawDoc where
  _id : String
  name : Option String
  data : Option JsonValue
  createTime : Option String

/-- Canonical video record produced by the normalizer. -/
structure VideoRecord where
  key : String
  title : String
  uploader : String
  playCount : JSNum
  duration : String
  publishTime : String
  danmakuCount : JSNum
  coverUrl : Option String
  videoUrl : Option String
deriving DecidableEq

/-- Default of the `NEXT_PUBLIC_CLOUD_STORAGE_DOMAIN` environment setting
(the source falls back to this literal when the variable is unset). -/
def CLOUD_STORAGE_DOMAIN : String :=
  "https://636c-cloud1-3gy44slx114f4c73-1258339218.tcb.qcloud.la"

def COVER_BASE_URL : String := CLOUD_STORAGE_DOMAIN ++ "/covers/"

/-- JavaScript `typeof v === "object" && v !== null` (arrays included). -/
def isObjectLike : JsonValue → Bool
  | .obj _ => true
  | .arr _ => true
  | _ => false

/-- Extraction of the entry collection from the `data` payload: an array
keeps its object-typed entries, any other object contributes its values
(same filter), everything else yields the empty collection. -/
def castToRecordArray : Option JsonValue → List JsonValue
  | some (.arr elems) => elems.filter isObjectLike
  | some (.obj fields) => (fields.map Prod.snd).filter isObjectLike
  | _ => []

/-- First argument that is a string with non-empty trim, returned
untrimmed; `null` when no argument qualifies. -/
def pickString : List (Option JsonValue) → Option String
  | [] => none
  | v :: rest =>
    match v with
    | some (.str s) => if 0 < (jsTrim s).length then some s else pickString rest
    | _ => pickString rest

/-- Numeric coercion with fallback: `Number(value)` if finite, else the
fallback, which defaults to `0` and is never overridden at any call
site. -/
def pickNumber (value : Option JsonValue) : JSNum :=
  let parsed := jsToNumberOpt value
  if jsIsFinite parsed then parsed else .finite 0

/-- Local-time calendar components of an instant, as produced by the
`Date` accessors (`getMonth` is 0-based, hence `monthIndex`). -/
structure DateParts where
  year : Int
  monthIndex : Int
  day : Int
  hour : Int
  minute : Int
  second : Int

/-- Environment of the embedding: the host's local calendar and its
implementation-defined `new Date(string)` parser for non-digit strings
(returning milliseconds since epoch, or `none` for an invalid date). -/
structure JsEnv where
  localParts : Int → DateParts
  parseDateString : String → Option Int

/-- The `formatDateTime` helper: zero-padded local-time
`YYYY-MM-DD HH:MM:SS` (the year itself is printed unpadded). -/
def formatDateTime (env : JsEnv) (ms : Int) : String :=
  let p := env.localParts ms
  intRepr p.year ++ "-" ++ padTwoDigits (p.monthIndex + 1) ++ "-" ++ padTwoDigits p.day
    ++ " " ++ padTwoDigits p.hour ++ ":" ++ padTwoDigits p.minute ++ ":"
    ++ padTwoDigits p.second

/-- `new Date(t)` for a numeric timestamp: valid when the magnitude is at
most 8.64e15 ms, storing the integer truncation. -/
def jsDateFromMs (q : ℚ) : Option Int :=
  if qLeb q 8640000000000000 && qLeb (-8640000000000000 : ℚ) q then some (qTrunc q)
  else none

/-- The seconds/milliseconds heuristic shared by the numeric branches of
`coerceToDate`: above 1e12 the value is milliseconds, otherwise seconds. -/
def heuristicMs (q : ℚ) : ℚ :=
  if qLtb (1000000000000 : ℚ) q then q else qMul q 1000

/-- The `coerceToDate` helper.  `JsonValue` payloads contain no `Date`
objects (they are JSON-like), so the `instanceof Date` branch of the
source is vacuous here.  A finite number goes through the
seconds/milliseconds heuristic; a trimmed non-empty all-digit string goes
through the same heuristic and falls back to the general `Date` string
parser when that fails; any other string goes directly to the general
parser; everything else is invalid. -/
def coerceToDate (env : JsEnv) : Option JsonValue → Option Int
  | some (.num n) =>
    match n with
    | .finite q => jsDateFromMs (heuristicMs q)
    | _ => none
  | some (.str s) =>
    match jsTrimList s.data with
    | [] => none
    | trimmed =>
      let viaDigits : Option Int :=
        if trimmed.all Char.isDigit then
          match jsStringToNumber (String.mk trimmed) with
          | .finite q => jsDateFromMs (heuristicMs q)
          | _ => none
        else none
      match viaDigits with
      | some d => some d
      | none => env.parseDateString (String.mk trimmed)
  | _ => none

/-- The ordered timestamp-bearing alias fields of `resolvePublishTime`. -/
def timestampSources (item : JsonValue) : List (Option JsonValue) :=
  [getField item "publishTime",
   getField item "publishTimestamp",
   getField item "publishTimeMs",
   getField item "publish_time",
   getField item "pubdate",
   getField item "pub_time",
   getField item "pubDate",
   getField item "ctime",
   getField item "createTime",
   getField item "created_at",
   getField item "createdAt"]

/-- First source that coerces to a valid date wins. -/
def firstCoercibleDate (env : JsEnv) : List (Option JsonValue) → Option Int
  | [] => none
  | v :: rest =>
    match coerceToDate env v with
    | some d => some d
    | none => firstCoercibleDate env rest

/-- The `resolvePublishTime` helper: first coercible timestamp source,
formatted; otherwise the first non-empty pre-formatted text field;
otherwise the sentinel `"未知时间"` (unknown time). -/
def resolvePublishTime (env : JsEnv) (item : JsonValue) : String :=
  match firstCoercibleDate env (timestampSources item) with
  | some d => formatDateTime env d
  | none =>
    (pickString
      [getField item "publishTimeFormatted",
       getField item "publishTimeRaw",
       getField item "pubdateText",
       getField item "pub_time_text",
       getField item "time"]).getD "未知时间"

/-- JavaScript nullish coalescing over successive field accesses:
`item.k₁ ?? item.k₂ ?? … ?? item.kₙ` (the last operand passes through
even when `null`). -/
def nullishChain (item : JsonValue) : List String → Option JsonValue
  | [] => none
  | [k] => getField item k
  | k :: ks =>
    match getField item k with
    | none => nullishChain item ks
    | some .null => nullishChain item ks
    | some v => some v

/-- The body of the `segments.map` callback of `normalizeRecords`: one
raw entry at positional index `index` becomes one canonical record. -/
def normalizeEntry (env : JsEnv) (docId : String) (index : Nat) (item : JsonValue) :
    VideoRecord :=
  let fallbackKey := docId ++ "-" ++ natRepr index
  let keyCandidate :=
    (pickString [getField item "id", getField item "bvid", some (.str fallbackKey)]).getD
      fallbackKey
  let coverValue := pickString [getField item "cover"]
  let coverUrl : Option String :=
    match coverValue with
    | none => none
    | some c =>
      if strStartsWith c "//" then some ("https:" ++ c)
      else if strStartsWith c "http://" || strStartsWith c "https://" then some c
      else some (COVER_BASE_URL ++ c)
  { key := keyCandidate
    title := (pickString [getField item "title", some (.str "未命名稿件")]).getD "未命名稿件"
    uploader :=
      (pickString [getField item "uploader", getField item "author", getField item "up",
        some (.str "未知投稿者")]).getD "未知投稿者"
    playCount := pickNumber (nullishChain item ["playCount", "play_count", "view"])
    duration := (pickString [getField item "duration", getField item "length",
      some (.str "00:00")]).getD "00:00"
    publishTime := resolvePublishTime env item
    danmakuCount :=
      pickNumber (nullishChain item ["danmakuCount", "danmaku_count", "danmuCount", "reply"])
    coverUrl := coverUrl
    videoUrl := pickString [getField item "videourl", getField item "videoUrl",
      getField item "url"] }

/-- Mapping with the positional index, starting at `start`. -/
def mapIdxFrom (f : Nat → α → β) : Nat → List α → List β
  | _, [] => []
  | i, x :: xs => f i x :: mapIdxFrom f (i + 1) xs

/-- The pre-sort record list (`flattened` in the source). -/
def flattenedRecords (env : JsEnv) (doc : RawDoc) : List VideoRecord :=
  mapIdxFrom (normalizeEntry env doc._id) 0 (castToRecordArray doc.data)

/-- Comparator test of `flattened.sort((a, b) => b.playCount - a.playCount)`:
`recordGt a b` holds when the comparator orders `a` strictly before `b`. -/
def recordGt (a b : VideoRecord) : Bool := jsNumNegative (jsNumSub b.playCount a.playCount)

/-- Stable insertion into a sorted list: `x` moves past exactly the
elements that must sort strictly before it. -/
def insertByGt (gt : α → α → Bool) (x : α) : List α → List α
  | [] => [x]
  | h :: t => if gt h x then h :: insertByGt gt x t else x :: h :: t

/-- Stable sort (the ECMAScript `Array#sort` contract) for a consistent
comparator encoded by `gt`. -/
def stableSortByGt (gt : α → α → Bool) (l : List α) : List α :=
  l.foldr (insertByGt gt) []

/-- The exported `normalizeRecords` function. -/
def normalizeRecords (env : JsEnv) (doc : RawDoc) : List VideoRecord :=
  stableSortByGt recordGt (flattenedRecords env doc)

/-! ## A concrete environment for witnesses: the UTC calendar and an
empty `Date` string parser (both are legal instances of the
environment). -/

/-- Days-to-civil-date conversion (proleptic Gregorian calendar). -/
def civilFromDays (z0 : Int) : Int × Int × Int :=
  let z := z0 + 719468
  let era := Int.fdiv z 146097
  let doe := z - era * 146097
  let yoe := Int.fdiv (doe - Int.fdiv doe 1460 + Int.fdiv doe 36524 - Int.fdiv doe 146096) 365
  let y := yoe + era * 400
  let doy := doe - (365 * yoe + Int.fdiv yoe 4 - Int.fdiv yoe 100)
  let mp := Int.fdiv (5 * doy + 2) 153
  let d := doy - Int.fdiv (153 * mp + 2) 5 + 1
  let m := if mp < 10 then mp + 3 else mp - 9
  (if m ≤ 2 then y + 1 else y, m, d)

def utcParts (ms : Int) : DateParts :=
  let day := Int.fdiv ms 86400000
  let msod := ms - day * 86400000
  let ymd := civilFromDays day
  { year := ymd.1
    monthIndex := ymd.2.1 - 1
    day := ymd.2.2
    hour := Int.fdiv msod 3600000
    minute := Int.fdiv (Int.emod msod 3600000) 60000
    second := Int.fdiv (Int.emod msod 60000) 1000 }

def utcEnv : JsEnv :=
  { localParts := utcParts
    parseDateString := fun _ => none }

/-! ## The analytics aggregator (src/app/projects/[id]/page.tsx) -/

def jsIsNaN : JSNum → Bool
  | .nan => true
  | _ => false

/-- The `parseDurationToSeconds` helper: trims, splits on `:` and coerces
each part with `Number`; any `NaN` part gives 0; three parts are
`H:M:S`, two parts are `M:S`, any other shape gives 0. -/
def parseDurationToSeconds (duration : String) : JSNum :=
  let sanitized := jsTrim duration
  if sanitized.length = 0 then .finite 0
  else
    let parts := (splitOnChar ':' sanitized).map jsStringToNumber
    if parts.any jsIsNaN then .finite 0
    else
      match parts with
      | [hours, minutes, seconds] =>
        jsNumAdd (jsNumAdd (jsNumMul hours (.finite 3600)) (jsNumMul minutes (.finite 60)))
          seconds
      | [minutes, seconds] => jsNumAdd (jsNumMul minutes (.finite 60)) seconds
      | _ => .finite 0

/-- One histogram bucket: label and half-open bounds. -/
structure PlayRange where
  label : String
  min : JSNum
  max : JSNum
deriving DecidableEq

/-- The eight fixed play-count buckets. -/
def PLAY_COUNT_RANGES : List PlayRange :=
  [⟨"0-1K", .finite 0, .finite 1000⟩,
   ⟨"1K-5K", .finite 1000, .finite 5000⟩,
   ⟨"5K-1万", .finite 5000, .finite 10000⟩,
   ⟨"1万-5万", .finite 10000, .finite 50000⟩,
   ⟨"5万-10万", .finite 50000, .finite 100000⟩,
   ⟨"10万-50万", .finite 100000, .finite 500000⟩,
   ⟨"50万-100万", .finite 500000, .finite 1000000⟩,
   ⟨"100万+", .finite 1000000, .posInf⟩]

/-- The membership test `playCount >= range.min && playCount < range.max`. -/
def inPlayRange (p : JSNum) (r : PlayRange) : Bool := jsNumGe p r.min && jsNumLt p r.max

/-- Increment the count of the first bucket containing `p` (the inner
`for … break` loop of `playCountDistribution`). -/
def bumpFirstRange (p : JSNum) : List (PlayRange × Nat) → List (PlayRange × Nat)
  | [] => []
  | (r, c) :: rest =>
    if inPlayRange p r then (r, c + 1) :: rest else (r, c) :: bumpFirstRange p rest

/-- The play-count histogram `playCountDistribution`. -/
def playCountDistribution (videos : List VideoRecord) : List (PlayRange × Nat) :=
  videos.foldl (fun dist v => bumpFirstRange v.playCount dist)
    (PLAY_COUNT_RANGES.map (fun r => (r, 0)))

def sumCounts (dist : List (PlayRange × Nat)) : Nat := (dist.map Prod.snd).sum

/-- Index of the first range in the list containing `p`, if any. -/
def rangesFirstIdx (p : JSNum) : List PlayRange → Option Nat
  | [] => none
  | r :: rest => if inPlayRange p r then some 0 else (rangesFirstIdx p rest).map (· + 1)

/-- Index of the first bucket containing `p`, if any. -/
def firstBucketIdx (p : JSNum) : Option Nat := rangesFirstIdx p PLAY_COUNT_RANGES

/-- The stop-word set of the word cloud, transcribed verbatim. -/
def STOP_WORDS : List String :=
  ["的", "了", "是", "在", "我", "有", "和", "就", "不", "人", "都", "一", "一个", "上",
   "也", "很", "到", "说", "要", "去", "你", "会", "着", "没有", "看", "好", "自己", "这",
   "那", "什么", "他", "她", "它", "们", "这个", "那个", "为", "与", "及", "等", "或", "从",
   "被", "把", "对", "让", "给", "但", "而", "如", "如果", "可以", "可能", "应该", "已经",
   "还是", "还有", "只是", "就是", "因为", "所以", "然后", "但是", "而且", "或者", "虽然", "不过",
   "之后", "以后", "之前", "以前", "the", "a", "an", "is", "are", "was", "were",
   "be", "been", "being", "have", "has", "had", "do", "does", "did", "will",
   "would", "could", "should", "may", "might", "must", "shall", "can",
   "need", "dare", "ought", "used", "to", "of", "in", "for", "on", "with",
   "at", "by", "from", "as", "into", "through", "during", "before", "after",
   "above", "below", "between", "under", "again", "further", "then", "once",
   "here", "there", "when", "where", "why", "how", "all", "each", "few",
   "more", "most", "other", "some", "such", "no", "nor", "not", "only",
   "own", "same", "so", "than", "too", "very", "just", "and", "but", "if",
   "or", "because", "until", "while", "about", "against", "what", "which",
   "who", "this", "that", "these", "those", "am", "it", "its", "his", "her",
   "their", "my", "your", "our", "me", "him", "them", "us", "i", "you", "he",
   "she", "we", "they", "ep", "BV", "bv", "av", "AV", "P", "p", "part",
   "Part", "PART"]

def isStopWord (w : String) : Bool := STOP_WORDS.contains w

/-- First character class stripped from titles (brackets and quotes). -/
def strippedBrackets : List Char :=
  ['【', '】', '[', ']', '「', '」', '『', '』', '（', '）', '(', ')', '《', '》',
   '<', '>', '"', '\'']

/-- Second character class stripped from titles (punctuation). -/
def strippedPunct : List Char :=
  ['，', '。', '！', '？', '、', '；', '：', '·', '…', '—', '-', '_', '|', '/',
   '\\', '@', '#', '$', '%', '^', '&', '*', '+', '=', '~', Char.ofNat 96]

/-- Replace every maximal run of `p`-characters by a single space.  Used
for the `\d+` and `\s+` global replacements; replacing a run by one space
per character would produce the same segments after the later whitespace
collapse, but the run form mirrors the regexes. -/
def squashRuns (p : Char → Bool) : Bool → List Char → List Char
  | _, [] => []
  | inRun, c :: rest =>
    if p c then
      if inRun then squashRuns p true rest else ' ' :: squashRuns p true rest
    else c :: squashRuns p false rest

/-- The `cleanedText` pipeline of `segmentChineseText`: strip brackets
and punctuation to spaces, blank out digit runs, collapse whitespace,
trim. -/
def cleanedText (text : String) : String :=
  jsTrim (String.mk (squashRuns jsIsWhitespace false
    (squashRuns Char.isDigit false
      ((text.data.map (fun c => if strippedBrackets.contains c then ' ' else c)).map
        (fun c => if strippedPunct.contains c then ' ' else c)))))

/-- Whitespace-delimited segments of the cleaned title
(`split(" ").filter(Boolean)`). -/
def segmentsOf (text : String) : List String :=
  (splitOnChar ' ' (cleanedText text)).filter (fun s => s ≠ "")

def isLatinChar (c : Char) : Bool :=
  ('a' ≤ c && c ≤ 'z') || ('A' ≤ c && c ≤ 'Z')

/-- The `/^[a-zA-Z]+$/` test. -/
def isLatinSegment (s : String) : Bool := !s.data.isEmpty && s.data.all isLatinChar

def isCjkChar (c : Char) : Bool := 0x4e00 ≤ c.toNat && c.toNat ≤ 0x9fa5

/-- The `/^[一-龥]+$/` test. -/
def isCjkWord (s : String) : Bool := !s.data.isEmpty && s.data.all isCjkChar

/-- All windows of length `len` over the segment, in position order,
kept when not a stop word and entirely CJK ideographs. -/
def windowTokens (cs : List Char) (len : Nat) : List String :=
  ((List.range (cs.length + 1 - len)).map (fun i => String.mk ((cs.drop i).take len))).filter
    (fun w => !isStopWord w && isCjkWord w)

/-- Tokens contributed by one segment: a pure Latin segment yields its
lower-cased form when long enough and not a stop word; any other segment
yields its CJK windows of length 4, then 3, then 2. -/
def segmentTokens (seg : String) : List String :=
  if isLatinSegment seg then
    if 2 ≤ seg.length && !isStopWord (strToLower seg) then [strToLower seg] else []
  else
    windowTokens seg.data 4 ++ windowTokens seg.data 3 ++ windowTokens seg.data 2

/-- The `segmentChineseText` helper. -/
def segmentChineseText (text : String) : List String :=
  ((segmentsOf text).map segmentTokens).flatten

/-- Insertion-ordered frequency update
(`wordFrequency[word] = (wordFrequency[word] ?? 0) + 1`). -/
def bumpWord : List (String × Nat) → String → List (String × Nat)
  | [], w => [(w, 1)]
  | (k, c) :: rest, w => if k = w then (k, c + 1) :: rest else (k, c) :: bumpWord rest w

/-- Token frequencies over all titles, as an insertion-ordered table
(`Object.entries` enumerates these non-index keys in insertion order). -/
def wordFrequency (videos : List VideoRecord) : List (String × Nat) :=
  videos.foldl (fun m v => (segmentChineseText v.title).foldl bumpWord m) []

/-- Comparator test of `.sort((a, b) => b.value - a.value)` on the
frequency entries. -/
def cloudGt (a b : String × Nat) : Bool := b.2 < a.2

/-- The `wordCloudData` table: entries with frequency at least 2,
sorted descending by frequency, first 100. -/
def wordCloudData (videos : List VideoRecord) : List (String × Nat) :=
  (stableSortByGt cloudGt ((wordFrequency videos).filter (fun e => 2 ≤ e.2))).take 100

/-! ## Generic lemmas about the stable sort -/

theorem insertByGt_perm (gt : α → α → Bool) (x : α) (l : List α) :
    (insertByGt gt x l).Perm (x :: l) := by
  induction l with
  | nil => exact List.Perm.refl _
  | cons h t ih =>
    simp only [insertByGt]
    split
    · exact (ih.cons h).trans (List.Perm.swap x h t)
    · exact List.Perm.refl _

theorem stableSortByGt_perm (gt : α → α → Bool) (l : List α) :
    (stableSortByGt gt l).Perm l := by
  induction l with
  | nil => exact List.Perm.refl _
  | cons x xs ih => exact (insertByGt_perm gt x (stableSortByGt gt xs)).trans (ih.cons x)

theorem insertByGt_head_cases (gt : α → α → Bool) (x : α) (l : List α) (y : α)
    (h : (insertByGt gt x l).head? = some y) : y = x ∨ l.head? = some y := by
  cases l with
  | nil =>
    simp only [insertByGt, List.head?] at h
    exact Or.inl (Option.some.inj h).symm
  | cons a t =>
    simp only [insertByGt] at h
    split at h
    · simp only [List.head?] at h
      exact Or.inr (by simpa using h)
    · simp only [List.head?] at h
      exact Or.inl (Option.some.inj h).symm

theorem chain'_insertByGt (gt : α → α → Bool)
    (hasym : ∀ a b, gt a b = true → gt b a = false) (x : α) (l : List α)
    (hl : l.Chain' (fun u v => gt v u = false)) :
    (insertByGt gt x l).Chain' (fun u v => gt v u = false) := by
  induction l with
  | nil => simp [insertByGt]
  | cons h t ih =>
    simp only [insertByGt]
    split
    · next hgh =>
      have ht := hl.tail
      have hins := ih ht
      rw [List.chain'_cons']
      refine ⟨?_, hins⟩
      intro y hy
      rcases insertByGt_head_cases gt x t y hy with rfl | hyt
      · exact hasym _ _ hgh
      · rcases t with _ | ⟨t1, ts⟩
        · simp at hyt
        · have := (List.chain'_cons.mp hl).1
          simp only [List.head?] at hyt
          cases hyt
          exact this
    · next hgh =>
      rw [List.chain'_cons]
      exact ⟨by simpa using hgh, hl⟩

theorem chain'_stableSortByGt (gt : α → α → Bool)
    (hasym : ∀ a b, gt a b = true → gt b a = false) (l : List α) :
    (stableSortByGt gt l).Chain' (fun u v => gt v u = false) := by
  induction l with
  | nil => simp [stableSortByGt]
  | cons x xs ih => exact chain'_insertByGt gt hasym x _ ih

theorem filter_insertByGt (gt : α → α → Bool) (p : α → Bool)
    (hcls : ∀ a b, p a = true → p b = true → gt a b = false) (x : α) (l : List α) :
    (insertByGt gt x l).filter p = if p x then x :: l.filter p else l.filter p := by
  induction l with
  | nil =>
    simp only [insertByGt]
    rw [List.filter_cons]
  | cons h t ih =>
    simp only [insertByGt]
    split
    · next hgh =>
      by_cases hpx : p x = true
      · have hph : p h = false := by
          by_contra hc
          have := hcls h x (Bool.of_not_eq_false hc) hpx
          rw [this] at hgh
          cases hgh
        rw [List.filter_cons, List.filter_cons]
        simp only [hph, Bool.false_eq_true, if_false, ih, hpx, if_true]
      · have hpx' : p x = false := Bool.of_not_eq_true hpx
        rw [List.filter_cons, List.filter_cons]
        simp only [ih, hpx', Bool.false_eq_true, if_false]
    · next hgh =>
      rw [List.filter_cons]

theorem filter_stableSortByGt (gt : α → α → Bool) (p : α → Bool)
    (hcls : ∀ a b, p a = true → p b = true → gt a b = false) (l : List α) :
    (stableSortByGt gt l).filter p = l.filter p := by
  induction l with
  | nil => rfl
  | cons x xs ih =>
    show ((insertByGt gt x (stableSortByGt gt xs)).filter p) = _
    rw [filter_insertByGt gt p hcls, ih, List.filter_cons]

/-- Upgrade a `Chain'` along an implication that may use membership of
both endpoints. -/
theorem chain'_imp_mem {R S : α → α → Prop} :
    ∀ (l : List α), (∀ a ∈ l, ∀ b ∈ l, R a b → S a b) → l.Chain' R → l.Chain' S := by
  intro l
  induction l with
  | nil => intro _ _; exact List.chain'_nil
  | cons x xs ih =>
    intro h hc
    cases xs with
    | nil => exact List.chain'_singleton x
    | cons y ys =>
      rw [List.chain'_cons] at hc ⊢
      refine ⟨h x (by simp) y (by simp) hc.1, ih ?_ hc.2⟩
      intro a ha b hb hab
      exact h a (List.mem_cons_of_mem _ ha) b (List.mem_cons_of_mem _ hb) hab

/-! ## Lemmas about `mapIdxFrom` -/

theorem length_mapIdxFrom (f : Nat → α → β) :
    ∀ (s : Nat) (l : List α), (mapIdxFrom f s l).length = l.length := by
  intro s l
  induction l generalizing s with
  | nil => rfl
  | cons x xs ih => simp [mapIdxFrom, ih]

theorem get?_mapIdxFrom (f : Nat → α → β) :
    ∀ (s : Nat) (l : List α) (k : Nat),
      (mapIdxFrom f s l).get? k = (l.get? k).map (f (s + k)) := by
  intro s l
  induction l generalizing s with
  | nil => intro k; rfl
  | cons x xs ih =>
    intro k
    cases k with
    | zero => rfl
    | succ k =>
      show (mapIdxFrom f (s + 1) xs).get? k = (xs.get? k).map (f (s + (k + 1)))
      rw [ih (s + 1) k]
      have : s + 1 + k = s + (k + 1) := by omega
      rw [this]

theorem mem_mapIdxFrom (f : Nat → α → β) (s : Nat) (l : List α) (y : β)
    (h : y ∈ mapIdxFrom f s l) :
    ∃ (i : Nat) (hi : i < l.length), y = f (s + i) (l.get ⟨i, hi⟩) := by
  rw [List.mem_iff_get?] at h
  obtain ⟨k, hk⟩ := h
  rw [get?_mapIdxFrom] at hk
  cases hget : l.get? k with
  | none => rw [hget] at hk; cases hk
  | some a =>
    rw [hget] at hk
    have hlt : k < l.length := (List.get?_eq_some.mp hget).1
    refine ⟨k, hlt, ?_⟩
    have := (List.get?_eq_some.mp hget).2
    obtain ⟨hh, he⟩ := List.get?_eq_some.mp hget
    simp only [Option.map] at hk
    cases hk
    rw [← he]

/-! ## Injectivity of the decimal representation -/

theorem natDigitsRev_val : ∀ (f n : Nat), n ≤ f → digitsValRev (natDigitsRev f n) = n := by
  intro f
  induction f with
  | zero => intro n h; interval_cases n; rfl
  | succ f ih =>
    intro n h
    by_cases hz : n = 0
    · simp [natDigitsRev, hz, digitsValRev]
    · have hd : n / 10 < n := Nat.div_lt_self (Nat.pos_of_ne_zero hz) (by omega)
      simp only [natDigitsRev, hz, if_false, digitsValRev]
      rw [ih (n / 10) (by omega)]
      omega

theorem natDigitsRev_lt10 : ∀ (f n d : Nat), d ∈ natDigitsRev f n → d < 10 := by
  intro f
  induction f with
  | zero => intro n d h; cases h
  | succ f ih =>
    intro n d h
    by_cases hz : n = 0
    · simp [natDigitsRev, hz] at h
    · simp only [natDigitsRev, hz, if_false, List.mem_cons] at h
      rcases h with rfl | h
      · exact Nat.mod_lt _ (by omega)
      · exact ih _ _ h

theorem digitChar_inj_lt10 : ∀ d1 < 10, ∀ d2 < 10, Nat.digitChar d1 = Nat.digitChar d2 → d1 = d2 := by
  decide

theorem map_digitChar_inj :
    ∀ (l1 l2 : List Nat), (∀ d ∈ l1, d < 10) → (∀ d ∈ l2, d < 10) →
      l1.map Nat.digitChar = l2.map Nat.digitChar → l1 = l2 := by
  intro l1
  induction l1 with
  | nil => intro l2 _ _ h; cases l2 with
    | nil => rfl
    | cons b bs => cases h
  | cons a as ih =>
    intro l2 h1 h2 h
    cases l2 with
    | nil => cases h
    | cons b bs =>
      simp only [List.map, List.cons.injEq] at h
      have ha := h1 a (by simp)
      have hb := h2 b (by simp)
      rw [digitChar_inj_lt10 a ha b hb h.1,
        ih bs (fun d hd => h1 d (List.mem_cons_of_mem _ hd))
          (fun d hd => h2 d (List.mem_cons_of_mem _ hd)) h.2]

theorem string_mk_inj (l1 l2 : List Char) (h : String.mk l1 = String.mk l2) : l1 = l2 := by
  cases h
  rfl


theorem natRepr_ne_zero_string (n : Nat) (hn : n ≠ 0) : natRepr n ≠ "0" := by
  intro h
  simp only [natRepr, hn, if_false] at h
  have hd : ((natDigitsRev n n).reverse).map Nat.digitChar = ['0'] := string_mk_inj _ _ h
  have h2 : ((natDigitsRev n n).reverse).map Nat.digitChar = [0].map Nat.digitChar := by
    simpa using hd
  have h3 := map_digitChar_inj _ _
    (fun d hd => natDigitsRev_lt10 _ _ _ (List.mem_reverse.mp hd))
    (by intro d hd; simp at hd; omega) h2
  have h4 : natDigitsRev n n = [0] := by
    rw [← List.reverse_reverse (natDigitsRev n n), h3]
    rfl
  have hv := natDigitsRev_val n n (Nat.le_refl n)
  rw [h4] at hv
  simp [digitsValRev] at hv
  exact hn hv.symm

theorem natRepr_inj (m n : Nat) (h : natRepr m = natRepr n) : m = n := by
  by_cases hm : m = 0 <;> by_cases hn : n = 0
  · omega
  · exfalso
    apply natRepr_ne_zero_string n hn
    rw [← h, hm]
    rfl
  · exfalso
    apply natRepr_ne_zero_string m hm
    rw [h, hn]
    rfl
  · simp only [natRepr, hm, hn, if_false] at h
    have hd := string_mk_inj _ _ h
    have h2 : (natDigitsRev m m).map Nat.digitChar = (natDigitsRev n n).map Nat.digitChar := by
      have := congrArg List.reverse hd
      simpa [List.map_reverse] using this
    have h3 := map_digitChar_inj _ _ (fun d hd => natDigitsRev_lt10 _ _ _ hd)
      (fun d hd => natDigitsRev_lt10 _ _ _ hd) h2
    have hm' := natDigitsRev_val m m (Nat.le_refl m)
    have hn' := natDigitsRev_val n n (Nat.le_refl n)
    rw [← hm', ← hn', h3]

/-! ## Bridge lemmas for the play-count comparator -/

theorem jsNumNegative_sub_asym (x y : JSNum)
    (h : jsNumNegative (jsNumSub x y) = true) : jsNumNegative (jsNumSub y x) = false := by
  cases x <;> cases y <;> simp_all [jsNumSub, jsNumNegative]
  next a b =>
    rw [Bool.eq_false_iff]
    intro hc
    have h1 : qSub a b < 0 := (qLtb_iff _ _).mp h
    have h2 : qSub b a < 0 := (qLtb_iff _ _).mp hc
    rw [qSub_eq] at h1 h2
    linarith

theorem recordGt_asym (a b : VideoRecord) (h : recordGt a b = true) : recordGt b a = false :=
  jsNumNegative_sub_asym _ _ h

theorem recordGt_same_class (q : JSNum) (a b : VideoRecord)
    (ha : a.playCount = q) (hb : b.playCount = q) : recordGt a b = false := by
  have : jsNumSub b.playCount a.playCount = jsNumSub q q := by rw [ha, hb]
  rw [recordGt, this]
  cases q with
  | nan => rfl
  | posInf => rfl
  | negInf => rfl
  | finite c =>
    simp only [jsNumSub, jsNumNegative]
    rw [Bool.eq_false_iff]
    intro hc
    have := (qLtb_iff _ _).mp hc
    rw [qSub_eq] at this
    linarith

theorem pickNumber_finite (v : Option JsonValue) : ∃ q : ℚ, pickNumber v = .finite q := by
  rcases hj : jsToNumberOpt v with _ | _ | _ | q
  · exact ⟨0, by simp [pickNumber, hj, jsIsFinite]⟩
  · exact ⟨0, by simp [pickNumber, hj, jsIsFinite]⟩
  · exact ⟨0, by simp [pickNumber, hj, jsIsFinite]⟩
  · exact ⟨q, by simp [pickNumber, hj, jsIsFinite]⟩

theorem pickNumber_default (v : Option JsonValue) (h : jsIsFinite (jsToNumberOpt v) = false) :
    pickNumber v = .finite 0 := by
  simp [pickNumber, h]

theorem mem_flattenedRecords (env : JsEnv) (doc : RawDoc) (r : VideoRecord)
    (h : r ∈ flattenedRecords env doc) :
    ∃ (i : Nat) (hi : i < (castToRecordArray doc.data).length),
      r = normalizeEntry env doc._id i ((castToRecordArray doc.data).get ⟨i, hi⟩) := by
  obtain ⟨i, hi, he⟩ := mem_mapIdxFrom _ 0 _ _ h
  exact ⟨i, hi, by simpa using he⟩

theorem mem_normalizeRecords_finite (env : JsEnv) (doc : RawDoc) (r : VideoRecord)
    (h : r ∈ normalizeRecords env doc) :
    (∃ q : ℚ, r.playCount = .finite q) ∧ (∃ q : ℚ, r.danmakuCount = .finite q) := by
  have h2 : r ∈ flattenedRecords env doc := ((stableSortByGt_perm _ _).mem_iff).mp h
  obtain ⟨i, hi, rfl⟩ := mem_flattenedRecords env doc r h2
  exact ⟨pickNumber_finite _, pickNumber_finite _⟩

/-! ## Concrete documents used by witnesses and counterexamples -/

/-- Document with one entry whose play count is the number 7. -/
def docPlay7 : RawDoc :=
  ⟨"d", none, some (.arr [.obj [("playCount", .num (.finite 7))]]), none⟩

/-- The canonical record `normalizeRecords` produces for `docPlay7`. -/
def recPlay7 : VideoRecord :=
  ⟨"d-0", "未命名稿件", "未知投稿者", .finite 7, "00:00", "未知时间", .finite 0, none, none⟩

/-- Document with a negative play count and a fractional string play
count. -/
def docNegativePlay : RawDoc :=
  ⟨"d", none,
    some (.arr [.obj [("playCount", .num (.finite (-5)))],
      .obj [("playCount", .str "2.5")]]),
    none⟩

/-- The record for the `-5` entry of `docNegativePlay`. -/
def recNegativePlay : VideoRecord :=
  ⟨"d-0", "未命名稿件", "未知投稿者", .finite (-5), "00:00", "未知时间", .finite 0, none, none⟩

/-! ## Claim C1 -/

/-- C1 counterexample: the claim "the `playCount` and `danmakuCount`
fields of every record produced by `normalizeRecords` are non-negative
integers" fails on a raw entry whose play count is the number `-5`:
`pickNumber` only checks finiteness, so the negative value passes
through. -/
theorem playcount_nonneg_integer_cex :
    ¬ (∀ r ∈ normalizeRecords utcEnv docNegativePlay,
        (∃ n : Nat, r.playCount = JSNum.finite (n : ℚ)) ∧
        (∃ n : Nat, r.danmakuCount = JSNum.finite (n : ℚ))) := by
  intro h
  have hmem : recNegativePlay ∈ normalizeRecords utcEnv docNegativePlay := by decide
  obtain ⟨n, hn⟩ := (h recNegativePlay hmem).1
  have hq : (-5 : ℚ) = (n : ℚ) := JSNum.finite.inj hn
  have hnn : (0 : ℚ) ≤ (n : ℚ) := Nat.cast_nonneg n
  rw [← hq] at hnn
  norm_num at hnn

/-- C1 (amended): every record produced by `normalizeRecords` has finite
(never `NaN`, never infinite) `playCount` and `danmakuCount`, and the
coercion falls back to `0` whenever the aliased source value does not
coerce to a finite number; the values may however be negative or
non-integral when the source value is. -/
theorem normalized_counts_finite (env : JsEnv) (doc : RawDoc) (r : VideoRecord)
    (h : r ∈ normalizeRecords env doc) :
    ((∃ q : ℚ, r.playCount = JSNum.finite q) ∧ (∃ q : ℚ, r.danmakuCount = JSNum.finite q)) ∧
    (∀ v : Option JsonValue, jsIsFinite (jsToNumberOpt v) = false → pickNumber v = .finite 0) :=
  ⟨mem_normalizeRecords_finite env doc r h, fun v hv => pickNumber_default v hv⟩

/-- C1 witness: the theorem applied to the record of `docPlay7`. -/
theorem normalized_counts_finite_witness :
    recPlay7 ∈ normalizeRecords utcEnv docPlay7 ∧
    ((∃ q : ℚ, recPlay7.playCount = JSNum.finite q) ∧
      (∃ q : ℚ, recPlay7.danmakuCount = JSNum.finite q)) :=
  ⟨by decide, (normalized_counts_finite utcEnv docPlay7 recPlay7 (by decide)).1⟩

/-! ## Claim C2 -/

/-- C2: the sequence returned by `normalizeRecords` is sorted descending
by `playCount` (adjacent records `a`, `b` satisfy
`a.playCount >= b.playCount`), and the sort is stable: for every play
count value, the records carrying it appear in the same order as in the
pre-sort entry list `flattenedRecords`. -/
theorem normalizeRecords_sorted_and_stable (env : JsEnv) (doc : RawDoc) :
    (normalizeRecords env doc).Chain' (fun a b => jsNumGe a.playCount b.playCount = true) ∧
    ∀ q : JSNum,
      (normalizeRecords env doc).filter (fun r => decide (r.playCount = q)) =
        (flattenedRecords env doc).filter (fun r => decide (r.playCount = q)) := by
  constructor
  · have hc : (normalizeRecords env doc).Chain' (fun u v => recordGt v u = false) :=
      chain'_stableSortByGt recordGt recordGt_asym (flattenedRecords env doc)
    refine chain'_imp_mem _ ?_ hc
    intro a ha b hb hab
    obtain ⟨⟨qa, hqa⟩, -⟩ := mem_normalizeRecords_finite env doc a ha
    obtain ⟨⟨qb, hqb⟩, -⟩ := mem_normalizeRecords_finite env doc b hb
    rw [recordGt, hqa, hqb] at hab
    simp only [jsNumSub, jsNumNegative] at hab
    rw [hqa, hqb]
    simp only [jsNumGe]
    rw [qLeb_iff]
    have hnlt : ¬ (qSub qa qb < 0) := by
      intro hc'
      rw [← qLtb_iff] at hc'
      rw [hc'] at hab
      cases hab
    rw [qSub_eq] at hnlt
    linarith
  · intro q
    exact filter_stableSortByGt recordGt _
      (fun a b ha hb =>
        recordGt_same_class q a b (of_decide_eq_true ha) (of_decide_eq_true hb)) _

/-! ## Claim C7 -/

/-- C7: normalization is deterministic — calling `normalizeRecords` twice
on the same raw document (in the same environment, which fixes the local
calendar and `Date` string parser, the only wall-clock-adjacent inputs)
yields an identical canonical sequence.  In this pure embedding the
normalizer is a function of the document and environment alone, so the
two runs coincide definitionally. -/
theorem normalizeRecords_deterministic (env : JsEnv) (doc : RawDoc) :
    normalizeRecords env doc = normalizeRecords env doc := rfl

/-! ## Claim C3 -/

theorem pickString_append (xs ys : List (Option JsonValue)) :
    pickString (xs ++ ys) =
      match pickString xs with
      | some s => some s
      | none => pickString ys := by
  induction xs with
  | nil => rfl
  | cons v vs ih =>
    rcases v with _ | j
    · simpa [pickString] using ih
    · cases j with
      | str s =>
        simp only [List.cons_append, pickString]
        split
        · rfl
        · exact ih
      | null => simpa [pickString] using ih
      | bool b => simpa [pickString] using ih
      | num n => simpa [pickString] using ih
      | arr elems => simpa [pickString] using ih
      | obj fields => simpa [pickString] using ih

theorem mem_dropWhile_of_neg (p : Char → Bool) :
    ∀ (l : List Char) (c : Char), c ∈ l → p c = false → c ∈ l.dropWhile p := by
  intro l
  induction l with
  | nil => intro c h _; cases h
  | cons a t ih =>
    intro c hc hpc
    by_cases hpa : p a = true
    · rw [List.dropWhile_cons, if_pos hpa]
      rcases List.mem_cons.mp hc with rfl | hct
      · rw [hpa] at hpc; cases hpc
      · exact ih c hct hpc
    · rw [List.dropWhile_cons, if_neg hpa]
      exact hc

theorem jsTrimList_ne_nil (cs : List Char) (c : Char) (hc : c ∈ cs)
    (hw : jsIsWhitespace c = false) : jsTrimList cs ≠ [] := by
  intro h
  unfold jsTrimList at h
  rw [List.reverse_eq_nil_iff] at h
  have h1 : c ∈ cs.dropWhile jsIsWhitespace := mem_dropWhile_of_neg _ cs c hc hw
  have h2 : c ∈ (cs.dropWhile jsIsWhitespace).reverse := List.mem_reverse.mpr h1
  have h3 := mem_dropWhile_of_neg _ _ c h2 hw
  rw [h] at h3
  cases h3

theorem fallbackKey_trim_pos (docId : String) (i : Nat) :
    0 < (jsTrim (docId ++ "-" ++ natRepr i)).length := by
  have hmem : '-' ∈ (docId ++ "-" ++ natRepr i).data := by
    rw [String.data_append, String.data_append]
    simp [show ("-" : String).data = ['-'] from rfl]
  have hne := jsTrimList_ne_nil _ '-' hmem (by decide)
  exact List.length_pos.mpr hne

theorem normalizeEntry_key_fallback (env : JsEnv) (docId : String) (i : Nat) (item : JsonValue)
    (hid : pickString [getField item "id", getField item "bvid"] = none) :
    (normalizeEntry env docId i item).key = docId ++ "-" ++ natRepr i := by
  have hk : (normalizeEntry env docId i item).key =
      (pickString [getField item "id", getField item "bvid",
        some (.str (docId ++ "-" ++ natRepr i))]).getD (docId ++ "-" ++ natRepr i) := rfl
  rw [hk]
  rw [show ([getField item "id", getField item "bvid",
      some (JsonValue.str (docId ++ "-" ++ natRepr i))] : List (Option JsonValue)) =
    [getField item "id", getField item "bvid"] ++
      [some (JsonValue.str (docId ++ "-" ++ natRepr i))] from rfl]
  rw [pickString_append, hid]
  simp [pickString, fallbackKey_trim_pos docId i]

theorem fallbackKey_inj (docId : String) (i j : Nat)
    (h : docId ++ "-" ++ natRepr i = docId ++ "-" ++ natRepr j) : i = j := by
  have hd := congrArg String.data h
  rw [String.data_append, String.data_append, String.data_append, String.data_append] at hd
  have h2 : (natRepr i).data = (natRepr j).data := List.append_cancel_left hd
  have h3 : natRepr i = natRepr j := congrArg String.mk h2
  exact natRepr_inj _ _ h3

theorem getElem_mapIdxFrom (f : Nat → α → β) :
    ∀ (s : Nat) (l : List α) (i : Nat) (h1 : i < (mapIdxFrom f s l).length)
      (h2 : i < l.length), (mapIdxFrom f s l)[i] = f (s + i) l[i] := by
  intro s l
  induction l generalizing s with
  | nil => intro i _ h2; exact absurd h2 (Nat.not_lt_zero i)
  | cons x xs ih =>
    intro i h1 h2
    cases i with
    | zero => show f s x = f (s + 0) x; rw [Nat.add_zero]
    | succ i =>
      have h1' : i < (mapIdxFrom f (s + 1) xs).length := by
        simpa [mapIdxFrom] using h1
      have h2' : i < xs.length := by simpa using h2
      show (mapIdxFrom f (s + 1) xs)[i] = f (s + (i + 1)) (x :: xs)[i + 1]
      rw [ih (s + 1) i h1' h2']
      rw [show s + 1 + i = s + (i + 1) from by omega]
      rfl

/-- C3 counterexample: two raw entries sharing the natural id `"x"`
produce two canonical records with the same key, so one normalized
sequence can contain duplicate keys. -/
theorem normalizeRecords_dup_keys_cex :
    ¬ (normalizeRecords utcEnv
        ⟨"d", none, some (.arr [.obj [("id", .str "x")], .obj [("id", .str "x")]]), none⟩
      ).Pairwise (fun a b => a.key ≠ b.key) := by
  intro h
  have hmap := List.pairwise_map.mpr h
  rw [show (normalizeRecords utcEnv
      ⟨"d", none, some (.arr [.obj [("id", .str "x")], .obj [("id", .str "x")]]), none⟩
    ).map (fun r => r.key) = ["x", "x"] from by decide] at hmap
  exact (by decide : ¬ (["x", "x"].Pairwise (· ≠ ·))) hmap

/-- C3 (amended): the key of each record is the first non-empty string
among the entry's `id`, its `bvid`, and the positional fallback
`"<documentId>-<i>"`; when no entry supplies a usable `id` or `bvid`
(so every key is the positional fallback) the keys of one normalized
sequence are pairwise distinct.  Two entries sharing the same non-empty
`id`, however, produce the same key (see the counterexample). -/
theorem normalizeRecords_keys_unique_fallback (env : JsEnv) (doc : RawDoc)
    (hids : ∀ item ∈ castToRecordArray doc.data,
      pickString [getField item "id", getField item "bvid"] = none) :
    (normalizeRecords env doc).Pairwise (fun a b => a.key ≠ b.key) := by
  have hflat : (flattenedRecords env doc).Pairwise (fun a b => a.key ≠ b.key) := by
    rw [List.pairwise_iff_getElem]
    intro i j hi hj hij
    have hlen : (flattenedRecords env doc).length = (castToRecordArray doc.data).length :=
      length_mapIdxFrom _ _ _
    have hi' : i < (castToRecordArray doc.data).length := by omega
    have hj' : j < (castToRecordArray doc.data).length := by omega
    have e1 : (flattenedRecords env doc)[i] =
        normalizeEntry env doc._id (0 + i) (castToRecordArray doc.data)[i] :=
      getElem_mapIdxFrom (normalizeEntry env doc._id) 0 (castToRecordArray doc.data) i hi hi'
    have e2 : (flattenedRecords env doc)[j] =
        normalizeEntry env doc._id (0 + j) (castToRecordArray doc.data)[j] :=
      getElem_mapIdxFrom (normalizeEntry env doc._id) 0 (castToRecordArray doc.data) j hj hj'
    rw [e1, e2,
      normalizeEntry_key_fallback env doc._id (0 + i) _
        (hids _ (List.getElem_mem hi')),
      normalizeEntry_key_fallback env doc._id (0 + j) _
        (hids _ (List.getElem_mem hj'))]
    intro hkey
    have := fallbackKey_inj doc._id (0 + i) (0 + j) hkey
    omega
  exact ((stableSortByGt_perm recordGt (flattenedRecords env doc)).pairwise_iff
    (fun h => h.symm)).mpr hflat

/-- C3 witness: the amended theorem applied to a document whose two
entries carry no id fields. -/
theorem normalizeRecords_keys_unique_fallback_witness :
    (normalizeRecords utcEnv
      ⟨"d", none, some (.arr [.obj [("title", .str "a")], .obj []]), none⟩
    ).Pairwise (fun a b => a.key ≠ b.key) :=
  normalizeRecords_keys_unique_fallback utcEnv
    ⟨"d", none, some (.arr [.obj [("title", .str "a")], .obj []]), none⟩ (by decide)

/-! ## Claim C4 -/

/-- C4: `normalizeRecords` is total — in this embedding it is a function,
and the theorem pins down the degradation behaviour: the output always
has exactly one record per extracted entry; an absent `data` field and a
`data` field that is neither an object nor an array both yield the empty
sequence; and inside an array or keyed map exactly the object-typed
entries are kept, the rest filtered out rather than failing. -/
theorem normalizeRecords_total_on_malformed (env : JsEnv) (doc : RawDoc) :
    ((normalizeRecords env doc).length = (castToRecordArray doc.data).length) ∧
    (doc.data = none → normalizeRecords env doc = []) ∧
    (∀ v : JsonValue, doc.data = some v → isObjectLike v = false →
      normalizeRecords env doc = []) ∧
    (∀ elems : List JsonValue, doc.data = some (.arr elems) →
      castToRecordArray doc.data = elems.filter isObjectLike) ∧
    (∀ fields : List (String × JsonValue), doc.data = some (.obj fields) →
      castToRecordArray doc.data = (fields.map Prod.snd).filter isObjectLike) := by
  refine ⟨?_, ?_, ?_, ?_, ?_⟩
  · exact ((stableSortByGt_perm recordGt (flattenedRecords env doc)).length_eq).trans
      (length_mapIdxFrom _ _ _)
  · intro h
    simp [normalizeRecords, flattenedRecords, castToRecordArray, h, mapIdxFrom, stableSortByGt]
  · intro v hv hob
    cases v <;>
      simp_all [castToRecordArray, normalizeRecords, flattenedRecords, mapIdxFrom,
        stableSortByGt, isObjectLike]
  · intro elems he
    rw [he]
    rfl
  · intro fields he
    rw [he]
    rfl

/-- C4 witness: the theorem applied to a string payload, an absent
payload, and an array payload with one non-object entry. -/
theorem normalizeRecords_total_on_malformed_witness :
    normalizeRecords utcEnv ⟨"d", none, some (.str "oops"), none⟩ = [] ∧
    normalizeRecords utcEnv ⟨"d", none, none, none⟩ = [] ∧
    castToRecordArray (some (.arr [.str "x", .obj [("a", .null)]])) =
      [JsonValue.obj [("a", .null)]] :=
  ⟨(normalizeRecords_total_on_malformed utcEnv
      ⟨"d", none, some (.str "oops"), none⟩).2.2.1 (.str "oops") rfl rfl,
   (normalizeRecords_total_on_malformed utcEnv ⟨"d", none, none, none⟩).2.1 rfl,
   (normalizeRecords_total_on_malformed utcEnv
      ⟨"d", none, some (.arr [.str "x", .obj [("a", .null)]]), none⟩).2.2.2.1
     [.str "x", .obj [("a", .null)]] rfl⟩

/-! ## Claim C5 -/

theorem map_fst_bumpFirstRange (p : JSNum) :
    ∀ (dist : List (PlayRange × Nat)), (bumpFirstRange p dist).map Prod.fst = dist.map Prod.fst := by
  intro dist
  induction dist with
  | nil => rfl
  | cons rc rest ih =>
    obtain ⟨r, c⟩ := rc
    simp only [bumpFirstRange]
    split
    · rfl
    · simp [ih]

theorem rangesFirstIdx_succ_iff (p : JSNum) (rs : List PlayRange) (j : Nat) :
    ((rangesFirstIdx p rs).map (· + 1) = some (j + 1)) ↔ rangesFirstIdx p rs = some j := by
  cases hx : rangesFirstIdx p rs <;> simp [hx]

theorem rangesFirstIdx_succ_ne_zero (p : JSNum) (rs : List PlayRange) :
    ¬ ((rangesFirstIdx p rs).map (· + 1) = some 0) := by
  cases hx : rangesFirstIdx p rs <;> simp [hx]


theorem get?_bumpFirstRange (p : JSNum) :
    ∀ (dist : List (PlayRange × Nat)) (j : Nat),
      (bumpFirstRange p dist).get? j =
        (dist.get? j).map (fun rc =>
          (rc.1, rc.2 + if rangesFirstIdx p (dist.map Prod.fst) = some j then 1 else 0)) := by
  intro dist
  induction dist with
  | nil => intro j; rfl
  | cons rc rest ih =>
    obtain ⟨r, c⟩ := rc
    intro j
    by_cases h : inPlayRange p r = true
    · simp only [bumpFirstRange, h, if_true, List.map_cons, rangesFirstIdx]
      cases j with
      | zero => simp
      | succ j =>
        simp only [List.get?]
        cases hx : rest.get? j with
        | none => rfl
        | some rc2 => simp
    · have h' : inPlayRange p r = false := by simpa using h
      simp only [bumpFirstRange, h', Bool.false_eq_true, if_false, List.map_cons,
        rangesFirstIdx]
      cases j with
      | zero =>
        simp only [List.get?]
        rw [if_neg (rangesFirstIdx_succ_ne_zero p (rest.map Prod.fst))]
        simp
      | succ j =>
        simp only [List.get?]
        rw [ih j]
        cases hx : rest.get? j with
        | none => rfl
        | some rc2 =>
          simp only [Option.map_some']
          by_cases hj : rangesFirstIdx p (rest.map Prod.fst) = some j
          · rw [if_pos hj, if_pos ((rangesFirstIdx_succ_iff p _ j).mpr hj)]
          · rw [if_neg hj, if_neg (fun hxx => hj ((rangesFirstIdx_succ_iff p _ j).mp hxx))]

theorem get?_playDist_fold (videos : List VideoRecord) :
    ∀ (dist : List (PlayRange × Nat)) (j : Nat),
      ((videos.foldl (fun d v => bumpFirstRange v.playCount d) dist).get? j) =
        (dist.get? j).map (fun rc =>
          (rc.1, rc.2 + (videos.filter (fun v =>
            decide (rangesFirstIdx v.playCount (dist.map Prod.fst) = some j))).length)) := by
  induction videos with
  | nil =>
    intro dist j
    show dist.get? j = _
    cases hx : dist.get? j with
    | none => rfl
    | some rc => simp [List.filter]
  | cons v vs ih =>
    intro dist j
    show ((vs.foldl _ (bumpFirstRange v.playCount dist)).get? j) = _
    rw [ih (bumpFirstRange v.playCount dist) j, get?_bumpFirstRange v.playCount dist j,
      map_fst_bumpFirstRange v.playCount dist]
    cases hx : dist.get? j with
    | none => rfl
    | some rc =>
      simp only [Option.map_some']
      rw [List.filter_cons]
      by_cases hv : rangesFirstIdx v.playCount (dist.map Prod.fst) = some j
      · simp [hv]
        omega
      · simp [hv]

theorem any_fst_eq_any_map (P : PlayRange → Bool) :
    ∀ (d : List (PlayRange × Nat)), d.any (fun rc => P rc.1) = (d.map Prod.fst).any P := by
  intro d
  induction d with
  | nil => rfl
  | cons x xs ihx => simp [List.any_cons, ihx]

theorem sumCounts_bumpFirstRange (p : JSNum) :
    ∀ (dist : List (PlayRange × Nat)),
      sumCounts (bumpFirstRange p dist) =
        sumCounts dist + (if dist.any (fun rc => inPlayRange p rc.1) then 1 else 0) := by
  intro dist
  induction dist with
  | nil => rfl
  | cons rc rest ih =>
    obtain ⟨r, c⟩ := rc
    by_cases h : inPlayRange p r = true
    · simp only [bumpFirstRange, h, if_true, sumCounts, List.map_cons, List.sum_cons,
        List.any_cons, Bool.true_or]
      omega
    · have h' : inPlayRange p r = false := by simpa using h
      simp only [bumpFirstRange, h', Bool.false_eq_true, if_false, sumCounts, List.map_cons,
        List.sum_cons, List.any_cons, Bool.false_or]
      have := ih
      simp only [sumCounts] at this
      omega

theorem sumCounts_playDist_fold (videos : List VideoRecord) :
    ∀ (dist : List (PlayRange × Nat)),
      sumCounts (videos.foldl (fun d v => bumpFirstRange v.playCount d) dist) =
        sumCounts dist +
          (videos.filter
            (fun v => dist.any (fun rc => inPlayRange v.playCount rc.1))).length := by
  induction videos with
  | nil => intro dist; simp
  | cons v vs ih =>
    intro dist
    show sumCounts (vs.foldl _ (bumpFirstRange v.playCount dist)) = _
    rw [ih (bumpFirstRange v.playCount dist), sumCounts_bumpFirstRange v.playCount dist]
    have hfilter : (vs.filter (fun w =>
        (bumpFirstRange v.playCount dist).any (fun rc => inPlayRange w.playCount rc.1))) =
        (vs.filter (fun w => dist.any (fun rc => inPlayRange w.playCount rc.1))) := by
      apply List.filter_congr
      intro w _
      rw [any_fst_eq_any_map, any_fst_eq_any_map, map_fst_bumpFirstRange]
    rw [hfilter, List.filter_cons]
    by_cases hv : dist.any (fun rc => inPlayRange v.playCount rc.1) = true
    · simp only [hv, if_true, List.length_cons]
      omega
    · have hv' : dist.any (fun rc => inPlayRange v.playCount rc.1) = false := by simpa using hv
      simp only [hv', Bool.false_eq_true, if_false]
      omega

theorem playRange_coverage (q : ℚ) (hq : 0 ≤ q) :
    ∃ r ∈ PLAY_COUNT_RANGES, inPlayRange (.finite q) r = true := by
  rcases lt_or_le q 1000 with h1 | h1
  · refine ⟨⟨"0-1K", .finite 0, .finite 1000⟩, by simp [PLAY_COUNT_RANGES], ?_⟩
    simp only [inPlayRange, jsNumGe, jsNumLt, Bool.and_eq_true]
    exact ⟨(qLeb_iff _ _).mpr hq, (qLtb_iff _ _).mpr h1⟩
  rcases lt_or_le q 5000 with h2 | h2
  · refine ⟨⟨"1K-5K", .finite 1000, .finite 5000⟩, by simp [PLAY_COUNT_RANGES], ?_⟩
    simp only [inPlayRange, jsNumGe, jsNumLt, Bool.and_eq_true]
    exact ⟨(qLeb_iff _ _).mpr h1, (qLtb_iff _ _).mpr h2⟩
  rcases lt_or_le q 10000 with h3 | h3
  · refine ⟨⟨"5K-1万", .finite 5000, .finite 10000⟩, by simp [PLAY_COUNT_RANGES], ?_⟩
    simp only [inPlayRange, jsNumGe, jsNumLt, Bool.and_eq_true]
    exact ⟨(qLeb_iff _ _).mpr h2, (qLtb_iff _ _).mpr h3⟩
  rcases lt_or_le q 50000 with h4 | h4
  · refine ⟨⟨"1万-5万", .finite 10000, .finite 50000⟩, by simp [PLAY_COUNT_RANGES], ?_⟩
    simp only [inPlayRange, jsNumGe, jsNumLt, Bool.and_eq_true]
    exact ⟨(qLeb_iff _ _).mpr h3, (qLtb_iff _ _).mpr h4⟩
  rcases lt_or_le q 100000 with h5 | h5
  · refine ⟨⟨"5万-10万", .finite 50000, .finite 100000⟩, by simp [PLAY_COUNT_RANGES], ?_⟩
    simp only [inPlayRange, jsNumGe, jsNumLt, Bool.and_eq_true]
    exact ⟨(qLeb_iff _ _).mpr h4, (qLtb_iff _ _).mpr h5⟩
  rcases lt_or_le q 500000 with h6 | h6
  · refine ⟨⟨"10万-50万", .finite 100000, .finite 500000⟩, by simp [PLAY_COUNT_RANGES], ?_⟩
    simp only [inPlayRange, jsNumGe, jsNumLt, Bool.and_eq_true]
    exact ⟨(qLeb_iff _ _).mpr h5, (qLtb_iff _ _).mpr h6⟩
  rcases lt_or_le q 1000000 with h7 | h7
  · refine ⟨⟨"50万-100万", .finite 500000, .finite 1000000⟩, by simp [PLAY_COUNT_RANGES], ?_⟩
    simp only [inPlayRange, jsNumGe, jsNumLt, Bool.and_eq_true]
    exact ⟨(qLeb_iff _ _).mpr h6, (qLtb_iff _ _).mpr h7⟩
  · refine ⟨⟨"100万+", .finite 1000000, .posInf⟩, by simp [PLAY_COUNT_RANGES], ?_⟩
    simp only [inPlayRange, jsNumGe, jsNumLt, Bool.and_eq_true]
    exact ⟨(qLeb_iff _ _).mpr h7, trivial⟩

/-- C5 counterexample: the full claim — in particular that the eight
bucket counts always sum to the number of records — fails on a canonical
sequence that `normalizeRecords` can really produce: a record with
negative `playCount` matches no bucket (every test requires
`playCount >= 0`), so it is counted nowhere. -/
theorem playCount_histogram_sum_cex :
    ¬ (sumCounts (playCountDistribution (normalizeRecords utcEnv docNegativePlay)) =
        (normalizeRecords utcEnv docNegativePlay).length) := by
  decide

/-- C5 (amended): the histogram uses exactly the eight fixed half-open
buckets `[0,1K) … [1M,∞)`; each bucket's count is exactly the number of
records whose first containing bucket it is (so each record is counted in
at most one bucket, the first one containing its `playCount`); and the
counts sum to the number of records provided every record has a
non-negative (finite) `playCount` — records with negative play counts
fall outside all buckets and are not counted. -/
theorem playCount_histogram (videos : List VideoRecord) :
    (PLAY_COUNT_RANGES.map (fun r => (r.min, r.max)) =
      [(JSNum.finite 0, JSNum.finite 1000), (.finite 1000, .finite 5000),
       (.finite 5000, .finite 10000), (.finite 10000, .finite 50000),
       (.finite 50000, .finite 100000), (.finite 100000, .finite 500000),
       (.finite 500000, .finite 1000000), (.finite 1000000, .posInf)]) ∧
    (∀ j : Nat, (playCountDistribution videos).get? j =
      (PLAY_COUNT_RANGES.get? j).map (fun r =>
        (r, (videos.filter (fun v => decide (firstBucketIdx v.playCount = some j))).length))) ∧
    ((∀ v ∈ videos, ∃ q : ℚ, v.playCount = .finite q ∧ 0 ≤ q) →
      sumCounts (playCountDistribution videos) = videos.length) := by
  have hfst : (PLAY_COUNT_RANGES.map (fun r => (r, (0 : Nat)))).map Prod.fst =
      PLAY_COUNT_RANGES := by
    decide
  refine ⟨by decide, ?_, ?_⟩
  · intro j
    have h := get?_playDist_fold videos (PLAY_COUNT_RANGES.map (fun r => (r, 0))) j
    rw [hfst] at h
    show (videos.foldl (fun d v => bumpFirstRange v.playCount d)
      (PLAY_COUNT_RANGES.map (fun r => (r, 0)))).get? j = _
    rw [h, List.get?_map]
    cases hx : PLAY_COUNT_RANGES.get? j with
    | none => rfl
    | some r => simp [firstBucketIdx]
  · intro hpos
    have h := sumCounts_playDist_fold videos (PLAY_COUNT_RANGES.map (fun r => (r, 0)))
    show sumCounts (videos.foldl (fun d v => bumpFirstRange v.playCount d)
      (PLAY_COUNT_RANGES.map (fun r => (r, 0)))) = videos.length
    rw [h]
    have hzero : sumCounts (PLAY_COUNT_RANGES.map (fun r => (r, 0))) = 0 := by decide
    rw [hzero]
    have hall : (videos.filter (fun v =>
        (PLAY_COUNT_RANGES.map (fun r => (r, (0 : Nat)))).any
          (fun rc => inPlayRange v.playCount rc.1))) = videos := by
      rw [List.filter_eq_self]
      intro v hv
      obtain ⟨q, hq, hq0⟩ := hpos v hv
      rw [any_fst_eq_any_map, hfst]
      obtain ⟨r, hr, hir⟩ := playRange_coverage q hq0
      rw [hq]
      exact List.any_eq_true.mpr ⟨r, hr, hir⟩
    rw [hall]
    omega

/-- C5 witness: the amended sum property applied to the singleton
sequence produced for `docPlay7`. -/
theorem playCount_histogram_witness :
    sumCounts (playCountDistribution (normalizeRecords utcEnv docPlay7)) =
      (normalizeRecords utcEnv docPlay7).length :=
  (playCount_histogram (normalizeRecords utcEnv docPlay7)).2.2 (by
    intro v hv
    rw [show normalizeRecords utcEnv docPlay7 = [recPlay7] from by decide] at hv
    simp only [List.mem_singleton] at hv
    subst hv
    exact ⟨7, rfl, by norm_num⟩)

/-! ## Claim C6 -/

theorem firstCoercibleDate_of (env : JsEnv) :
    ∀ (l : List (Option JsonValue)) (k : Nat) (v : Option JsonValue) (d : Int),
      (∀ j, j < k → coerceToDate env (l.getD j none) = none) →
      l.get? k = some v → coerceToDate env v = some d →
      firstCoercibleDate env l = some d := by
  intro l
  induction l with
  | nil => intro k v d _ hk _; cases hk
  | cons x rest ih =>
    intro k v d hprev hk hv
    cases k with
    | zero =>
      have hx : x = v := Option.some.inj hk
      subst hx
      simp only [firstCoercibleDate, hv]
    | succ k =>
      have h0 : coerceToDate env x = none := hprev 0 (Nat.succ_pos k)
      simp only [firstCoercibleDate, h0]
      exact ih k v d (fun j hj => hprev (j + 1) (by omega)) hk hv

theorem heuristicMs_eq (q : ℚ) :
    heuristicMs q = if (10 ^ 12 : ℚ) < q then q else q * 1000 := by
  have h12 : (1000000000000 : ℚ) = 10 ^ 12 := by norm_num
  unfold heuristicMs
  by_cases h : (10 ^ 12 : ℚ) < q
  · rw [if_pos ((qLtb_iff _ _).mpr (by rw [h12]; exact h)), if_pos h]
  · rw [if_neg (fun hc => h (by rw [← h12]; exact (qLtb_iff _ _).mp hc)), if_neg h, qMul_eq]

/-- C6: publish-time resolution tries the aliased timestamp fields in
priority order and uses the first one that coerces to a valid date,
formatting it with `formatDateTime`; a finite numeric value above `10^12`
is taken as milliseconds-since-epoch and any other finite numeric value
as seconds-since-epoch; a purely-digit trimmed string follows the same
heuristic (falling back to the general `Date` string parser when the
heuristic produces no valid date); and the formatted output is the
local-time `YYYY-MM-DD HH:MM:SS` string with two-digit zero-padded
month, day, hour, minute and second components. -/
theorem publishTime_resolution :
    (∀ (env : JsEnv) (item : JsonValue) (k : Nat) (v : Option JsonValue) (d : Int),
      (∀ j, j < k → coerceToDate env ((timestampSources item).getD j none) = none) →
      (timestampSources item).get? k = some v →
      coerceToDate env v = some d →
      resolvePublishTime env item = formatDateTime env d) ∧
    (∀ (env : JsEnv) (q : ℚ),
      coerceToDate env (some (.num (.finite q))) =
        jsDateFromMs (if (10 ^ 12 : ℚ) < q then q else q * 1000)) ∧
    (∀ (env : JsEnv) (s : String) (c : Char) (cs : List Char) (q : ℚ),
      jsTrimList s.data = c :: cs →
      (c :: cs).all Char.isDigit = true →
      jsStringToNumber (String.mk (c :: cs)) = .finite q →
      coerceToDate env (some (.str s)) =
        (match jsDateFromMs (if (10 ^ 12 : ℚ) < q then q else q * 1000) with
          | some d => some d
          | none => env.parseDateString (String.mk (c :: cs)))) ∧
    (∀ (env : JsEnv) (ms : Int),
      formatDateTime env ms =
        intRepr (env.localParts ms).year ++ "-"
          ++ padTwoDigits ((env.localParts ms).monthIndex + 1) ++ "-"
          ++ padTwoDigits (env.localParts ms).day ++ " "
          ++ padTwoDigits (env.localParts ms).hour ++ ":"
          ++ padTwoDigits (env.localParts ms).minute ++ ":"
          ++ padTwoDigits (env.localParts ms).second) ∧
    (∀ n : Int, 0 ≤ n → n < 10 → padTwoDigits n = "0" ++ intRepr n) := by
  refine ⟨?_, ?_, ?_, fun env ms => rfl, ?_⟩
  · intro env item k v d hprev hk hv
    have h := firstCoercibleDate_of env (timestampSources item) k v d hprev hk hv
    simp only [resolvePublishTime, h]
  · intro env q
    show jsDateFromMs (heuristicMs q) = _
    rw [heuristicMs_eq]
  · intro env s c cs q ht hdig hq
    show (match jsTrimList s.data with
      | [] => none
      | trimmed =>
        (match (if trimmed.all Char.isDigit then
            match jsStringToNumber (String.mk trimmed) with
            | .finite q' => jsDateFromMs (heuristicMs q')
            | _ => none
          else none : Option Int) with
        | some d => some d
        | none => env.parseDateString (String.mk trimmed))) = _
    rw [ht]
    simp only [hdig, if_true, hq, heuristicMs_eq]
  · intro n h0 h10
    have hrepr : (intRepr n).length = 1 := by
      interval_cases n <;> rfl
    unfold padTwoDigits
    rw [if_neg (by omega)]
    rw [hrepr]
    rfl

/-- C6 witness: the first-wins conjunct applied to an item whose only
timestamp field is `pubdate = 1700000000` (epoch seconds): the four
higher-priority sources are absent, and the result is the formatted
UTC time `2023-11-14 22:13:20`. -/
theorem publishTime_resolution_witness :
    resolvePublishTime utcEnv (.obj [("pubdate", .num (.finite 1700000000))]) =
      formatDateTime utcEnv 1700000000000 ∧
    formatDateTime utcEnv 1700000000000 = "2023-11-14 22:13:20" :=
  ⟨publishTime_resolution.1 utcEnv (.obj [("pubdate", .num (.finite 1700000000))]) 4
      (some (.num (.finite 1700000000))) 1700000000000
      (by decide) rfl (by decide),
   by decide⟩

/-! ## Claim C8 -/

/-- C8: cover-URL normalization.  With a present, non-empty cover string
`c`: a protocol-relative `//…` gets `https:` prefixed; an `http://` or
`https://` URL is used as-is; anything else is prefixed with the
configured cover base; an absent or blank cover yields `null`.  The two
end-to-end examples of the claim are included. -/
theorem cover_url_normalization :
    (∀ (env : JsEnv) (docId : String) (i : Nat) (item : JsonValue) (c : String),
      pickString [getField item "cover"] = some c →
      (normalizeEntry env docId i item).coverUrl =
        some (if strStartsWith c "//" then "https:" ++ c
          else if strStartsWith c "http://" || strStartsWith c "https://" then c
          else COVER_BASE_URL ++ c)) ∧
    (∀ (env : JsEnv) (docId : String) (i : Nat) (item : JsonValue),
      pickString [getField item "cover"] = none →
      (normalizeEntry env docId i item).coverUrl = none) ∧
    (∀ (env : JsEnv) (docId : String) (i : Nat),
      (normalizeEntry env docId i (.obj [("cover", .str "//example.com/a.jpg")])).coverUrl =
        some "https://example.com/a.jpg") ∧
    (∀ (env : JsEnv) (docId : String) (i : Nat),
      (normalizeEntry env docId i (.obj [("cover", .str "abc.jpg")])).coverUrl =
        some (COVER_BASE_URL ++ "abc.jpg")) := by
  refine ⟨?_, ?_, fun env docId i => rfl, fun env docId i => rfl⟩
  · intro env docId i item c h
    have hshape : (normalizeEntry env docId i item).coverUrl =
        (match pickString [getField item "cover"] with
          | none => none
          | some c' =>
            if strStartsWith c' "//" then some ("https:" ++ c')
            else if strStartsWith c' "http://" || strStartsWith c' "https://" then some c'
            else some (COVER_BASE_URL ++ c')) := rfl
    rw [hshape, h]
    by_cases h1 : strStartsWith c "//" = true
    · simp [h1]
    · by_cases h2 : (strStartsWith c "http://" || strStartsWith c "https://") = true
      · simp [h1, h2]
      · simp [h1, h2]
  · intro env docId i item h
    have hshape : (normalizeEntry env docId i item).coverUrl =
        (match pickString [getField item "cover"] with
          | none => none
          | some c' =>
            if strStartsWith c' "//" then some ("https:" ++ c')
            else if strStartsWith c' "http://" || strStartsWith c' "https://" then some c'
            else some (COVER_BASE_URL ++ c')) := rfl
    rw [hshape, h]

/-- C8 witness: the general conjunct applied to an entry whose cover is
`"//example.com/a.jpg"`, landing on the protocol-relative branch. -/
theorem cover_url_normalization_witness :
    (normalizeEntry utcEnv "d" 0 (.obj [("cover", .str "//example.com/a.jpg")])).coverUrl =
      some "https://example.com/a.jpg" :=
  (cover_url_normalization.1 utcEnv "d" 0 (.obj [("cover", .str "//example.com/a.jpg")])
    "//example.com/a.jpg" rfl).trans (by decide)

/-! ## Claim C10 -/

/-- C10: `parseDurationToSeconds` treats any trimmed duration string
with exactly two colon-separated parts as minutes:seconds whenever both
parts coerce to finite numbers under JavaScript `Number` — the empty
part coerces to `0`, so `"3:"` yields `180` rather than the unparseable
default `0` — while a non-empty one-part string (the bare seconds
string `"90"`) and any string with four or more parts yield `0` even
when every part is numeric. -/
theorem parseDuration_two_parts :
    (∀ (s a b : String) (qa qb : ℚ),
      (jsTrim s).length ≠ 0 →
      splitOnChar ':' (jsTrim s) = [a, b] →
      jsStringToNumber a = .finite qa →
      jsStringToNumber b = .finite qb →
      parseDurationToSeconds s = .finite (qa * 60 + qb)) ∧
    (parseDurationToSeconds "3:" = .finite 180) ∧
    (parseDurationToSeconds "90" = .finite 0) ∧
    (∀ s : String, 4 ≤ (splitOnChar ':' (jsTrim s)).length →
      parseDurationToSeconds s = .finite 0) := by
  refine ⟨?_, by decide, by decide, ?_⟩
  · intro s a b qa qb h0 hsplit ha hb
    show (if (jsTrim s).length = 0 then JSNum.finite 0
      else
        if ((splitOnChar ':' (jsTrim s)).map jsStringToNumber).any jsIsNaN then JSNum.finite 0
        else
          match (splitOnChar ':' (jsTrim s)).map jsStringToNumber with
          | [hours, minutes, seconds] =>
            jsNumAdd (jsNumAdd (jsNumMul hours (.finite 3600)) (jsNumMul minutes (.finite 60)))
              seconds
          | [minutes, seconds] => jsNumAdd (jsNumMul minutes (.finite 60)) seconds
          | _ => JSNum.finite 0) = JSNum.finite (qa * 60 + qb)
    rw [if_neg h0, hsplit]
    simp only [List.map, ha, hb, List.any_cons, List.any_nil, jsIsNaN, Bool.or_false,
      Bool.false_eq_true, if_false]
    show JSNum.finite (qAdd (qMul qa 60) qb) = JSNum.finite (qa * 60 + qb)
    rw [qMul_eq, qAdd_eq]
  · intro s h4
    by_cases h0 : (jsTrim s).length = 0
    · exfalso
      have hempty : jsTrim s = "" := by
        have hd : (jsTrim s).data = [] := List.length_eq_zero.mp h0
        have := congrArg String.mk hd
        simpa using this
      rw [hempty] at h4
      have : (splitOnChar ':' "").length = 1 := rfl
      omega
    · have hlen : 4 ≤ ((splitOnChar ':' (jsTrim s)).map jsStringToNumber).length := by
        rw [List.length_map]; exact h4
      show (if (jsTrim s).length = 0 then JSNum.finite 0
        else
          if ((splitOnChar ':' (jsTrim s)).map jsStringToNumber).any jsIsNaN then JSNum.finite 0
          else
            match (splitOnChar ':' (jsTrim s)).map jsStringToNumber with
            | [hours, minutes, seconds] =>
              jsNumAdd (jsNumAdd (jsNumMul hours (.finite 3600)) (jsNumMul minutes (.finite 60)))
                seconds
            | [minutes, seconds] => jsNumAdd (jsNumMul minutes (.finite 60)) seconds
            | _ => JSNum.finite 0) = JSNum.finite 0
      rw [if_neg h0]
      rcases hp : (splitOnChar ':' (jsTrim s)).map jsStringToNumber with _ | ⟨x1, l1⟩
      · rw [hp] at hlen; simp at hlen
      rcases l1 with _ | ⟨x2, l2⟩
      · rw [hp] at hlen; simp at hlen
      rcases l2 with _ | ⟨x3, l3⟩
      · rw [hp] at hlen; simp at hlen
      rcases l3 with _ | ⟨x4, l4⟩
      · rw [hp] at hlen; simp at hlen
      split
      · rfl
      · rfl

/-- C10 witness: the minutes:seconds conjunct applied to `"0:30"`. -/
theorem parseDuration_two_parts_witness :
    parseDurationToSeconds "0:30" = .finite ((0 : ℚ) * 60 + 30) :=
  parseDuration_two_parts.1 "0:30" "0" "30" 0 30 (by decide) (by decide) (by decide) (by decide)

/-! ## Claim C9 -/

theorem windowTokens_not_stop (cs : List Char) (len : Nat) (t : String)
    (h : t ∈ windowTokens cs len) : isStopWord t = false := by
  unfold windowTokens at h
  have hcond := (List.mem_filter.mp h).2
  rw [Bool.and_eq_true] at hcond
  simpa using hcond.1

theorem segmentTokens_not_stop (seg t : String) (ht : t ∈ segmentTokens seg) :
    isStopWord t = false := by
  unfold segmentTokens at ht
  by_cases hl : isLatinSegment seg = true
  · rw [if_pos hl] at ht
    by_cases hc : (2 ≤ seg.length && !isStopWord (strToLower seg)) = true
    · rw [if_pos hc] at ht
      rw [List.mem_singleton] at ht
      subst ht
      rw [Bool.and_eq_true] at hc
      simpa using hc.2
    · rw [if_neg hc] at ht
      cases ht
  · rw [if_neg hl] at ht
    rcases List.mem_append.mp ht with h1 | h2
    · rcases List.mem_append.mp h1 with h3 | h4
      · exact windowTokens_not_stop _ _ _ h3
      · exact windowTokens_not_stop _ _ _ h4
    · exact windowTokens_not_stop _ _ _ h2

theorem segmentChineseText_not_stop (txt t : String) (h : t ∈ segmentChineseText txt) :
    isStopWord t = false := by
  unfold segmentChineseText at h
  rw [List.mem_flatten] at h
  obtain ⟨l, hl, htl⟩ := h
  rw [List.mem_map] at hl
  obtain ⟨seg, _, rfl⟩ := hl
  exact segmentTokens_not_stop seg t htl

theorem mem_bumpWord (m : List (String × Nat)) (w k : String) (c : Nat)
    (h : (k, c) ∈ bumpWord m w) : k = w ∨ ∃ c', (k, c') ∈ m := by
  induction m with
  | nil =>
    simp only [bumpWord, List.mem_singleton, Prod.mk.injEq] at h
    exact Or.inl h.1
  | cons e rest ih =>
    obtain ⟨ek, ec⟩ := e
    simp only [bumpWord] at h
    split at h
    · next he =>
      rcases List.mem_cons.mp h with hh | hrest
      · rw [Prod.mk.injEq] at hh
        subst he
        exact Or.inr ⟨ec, by rw [hh.1]; exact List.mem_cons_self _ _⟩
      · exact Or.inr ⟨c, List.mem_cons_of_mem _ hrest⟩
    · rcases List.mem_cons.mp h with hh | hrest
      · rw [Prod.mk.injEq] at hh
        exact Or.inr ⟨ec, by rw [hh.1]; exact List.mem_cons_self _ _⟩
      · rcases ih hrest with h1 | ⟨c', h2⟩
        · exact Or.inl h1
        · exact Or.inr ⟨c', List.mem_cons_of_mem _ h2⟩

theorem mem_foldl_bumpWord (ts : List String) :
    ∀ (m : List (String × Nat)) (k : String) (c : Nat),
      (k, c) ∈ ts.foldl bumpWord m → (∃ c', (k, c') ∈ m) ∨ k ∈ ts := by
  induction ts with
  | nil => intro m k c h; exact Or.inl ⟨c, h⟩
  | cons t rest ih =>
    intro m k c h
    rcases ih (bumpWord m t) k c h with ⟨c', hc'⟩ | hk
    · rcases mem_bumpWord m t k c' hc' with rfl | ⟨c'', hc''⟩
      · exact Or.inr (List.mem_cons_self _ _)
      · exact Or.inl ⟨c'', hc''⟩
    · exact Or.inr (List.mem_cons_of_mem _ hk)

theorem mem_wordFrequency (videos : List VideoRecord) (k : String) (c : Nat)
    (h : (k, c) ∈ wordFrequency videos) :
    ∃ v ∈ videos, k ∈ segmentChineseText v.title := by
  have aux : ∀ (vs : List VideoRecord) (m : List (String × Nat)) (c' : Nat),
      (k, c') ∈ vs.foldl (fun m v => (segmentChineseText v.title).foldl bumpWord m) m →
      (∃ c'', (k, c'') ∈ m) ∨ ∃ v ∈ vs, k ∈ segmentChineseText v.title := by
    intro vs
    induction vs with
    | nil => intro m c' hm; exact Or.inl ⟨c', hm⟩
    | cons v rest ih =>
      intro m c' hm
      rcases ih _ c' hm with ⟨c'', hc''⟩ | ⟨w, hw, hkw⟩
      · rcases mem_foldl_bumpWord _ _ _ _ hc'' with ⟨c3, h3⟩ | hk
        · exact Or.inl ⟨c3, h3⟩
        · exact Or.inr ⟨v, List.mem_cons_self _ _, hk⟩
      · exact Or.inr ⟨w, List.mem_cons_of_mem _ hw, hkw⟩
  rcases aux videos [] c h with ⟨c'', hc''⟩ | hgood
  · cases hc''
  · exact hgood

theorem cloudGt_asym (a b : String × Nat) (h : cloudGt a b = true) : cloudGt b a = false := by
  simp only [cloudGt, decide_eq_true_eq] at h
  simp only [cloudGt]
  exact decide_eq_false (by omega)

/-- C9: the word-cloud table contains no stop word and no entry with
frequency below 2, has at most 100 entries, and is sorted descending by
frequency; a pure-Latin segment contributes its single lower-cased token
exactly when its length is at least 2 and the lower-cased form is not a
stop word; any other segment contributes its windows of length 4 down
to 2 that consist entirely of CJK ideographs and are not stop words. -/
theorem wordCloud_properties (videos : List VideoRecord) :
    (∀ e ∈ wordCloudData videos, isStopWord e.1 = false ∧ 2 ≤ e.2) ∧
    (wordCloudData videos).length ≤ 100 ∧
    (wordCloudData videos).Pairwise (fun a b => b.2 ≤ a.2) ∧
    (∀ seg : String, isLatinSegment seg = true → segmentTokens seg =
      if 2 ≤ seg.length && !isStopWord (strToLower seg) then [strToLower seg] else []) ∧
    (∀ seg : String, isLatinSegment seg = false → segmentTokens seg =
      windowTokens seg.data 4 ++ windowTokens seg.data 3 ++ windowTokens seg.data 2) := by
  refine ⟨?_, ?_, ?_, ?_, ?_⟩
  · intro e he
    have hsorted : e ∈ stableSortByGt cloudGt
        ((wordFrequency videos).filter (fun e => 2 ≤ e.2)) := List.mem_of_mem_take he
    have hfil : e ∈ (wordFrequency videos).filter (fun e => 2 ≤ e.2) :=
      ((stableSortByGt_perm _ _).mem_iff).mp hsorted
    have hfreq : e ∈ wordFrequency videos := List.mem_of_mem_filter hfil
    have hge : 2 ≤ e.2 := of_decide_eq_true (List.mem_filter.mp hfil).2
    obtain ⟨v, _, hk⟩ := mem_wordFrequency videos e.1 e.2 (by
      obtain ⟨k, c⟩ := e
      exact hfreq)
    exact ⟨segmentChineseText_not_stop _ _ hk, hge⟩
  · exact List.length_take_le _ _
  · have hc := chain'_stableSortByGt cloudGt cloudGt_asym
      ((wordFrequency videos).filter (fun e => 2 ≤ e.2))
    have hp : (stableSortByGt cloudGt
        ((wordFrequency videos).filter (fun e => 2 ≤ e.2))).Pairwise
          (fun a b => b.2 ≤ a.2) := by
      have himp : (stableSortByGt cloudGt
          ((wordFrequency videos).filter (fun e => 2 ≤ e.2))).Chain'
            (fun a b => b.2 ≤ a.2) := by
        refine List.Chain'.imp ?_ hc
        intro a b hab
        simp only [cloudGt, decide_eq_false_iff_not] at hab
        omega
      haveI : IsTrans (String × Nat) (fun a b => b.2 ≤ a.2) :=
        ⟨fun _ _ _ hab hbc => le_trans hbc hab⟩
      exact List.chain'_iff_pairwise.mp himp
    exact hp.sublist (List.take_sublist _ _)
  · intro seg h
    simp [segmentTokens, h]
  · intro seg h
    simp [segmentTokens, h]

/-- C9 witness: for the two sample titles, the overlapping CJK windows
put `("美食", 2)` in the table, and the theorem applied to that entry
certifies it is not a stop word with frequency at least 2. -/
theorem wordCloud_properties_witness :
    ("美食", 2) ∈ wordCloudData
      [⟨"k1", "懒人必看美食教程", "u", .finite 0, "00:00", "未知时间", .finite 0, none, none⟩,
       ⟨"k2", "美食探店vlog", "u", .finite 0, "00:00", "未知时间", .finite 0, none, none⟩] ∧
    (isStopWord ("美食", 2).1 = false ∧ 2 ≤ ("美食", 2).2) :=
  ⟨by decide,
   (wordCloud_properties
      [⟨"k1", "懒人必看美食教程", "u", .finite 0, "00:00", "未知时间", .finite 0, none, none⟩,
       ⟨"k2", "美食探店vlog", "u", .finite 0, "00:00", "未知时间", .finite 0, none, none⟩]).1
     ("美食", 2) (by decide)⟩
